import Mathlib

/-!
Verification of the LLM Council client (frontend/src/api.js, App.jsx,
components/Stage2.jsx) against its natural-language specification.

The JavaScript source is shallowly embedded: stateful browser APIs
(localStorage, timers, fetch) are made explicit as function arguments and
returned states; time is a natural number of milliseconds; text is a list of
natural-number code points and byte streams are lists of natural-number
bytes.  Fallible operations return Option/Except.
-/

namespace LLMCouncil

/-! ## Active-job persistence (api.js lines 15-64)

`saveActiveJob` writes `{jobId, conversationId, projectId, startedAt: Date.now()}`
to localStorage under one fixed key; `getActiveJob` reads it back, drops it
when `Date.now() - parsed.startedAt > 600000`, and `clearActiveJob` removes it.
The localStorage slot is modelled as an `Option ActiveJobRecord`; JSON
stringify/parse round-trips the record and is modelled as the identity. -/

/-- The record `saveActiveJob` persists (api.js lines 24-29). -/
structure ActiveJobRecord where
  jobId : Nat
  conversationId : Nat
  projectId : Nat
  startedAt : Nat
deriving Repr, DecidableEq

/-- The staleness threshold of `getActiveJob` (api.js line 44): 600000 ms. -/
def activeJobStaleMs : Nat := 600000

/-- Models `saveActiveJob(jobId, conversationId, projectId)` called at time
`now`: the stored slot is overwritten with a fresh record (api.js 22-33). -/
def saveActiveJob (jobId conversationId projectId now : Nat) : Option ActiveJobRecord :=
  some { jobId := jobId, conversationId := conversationId, projectId := projectId,
         startedAt := now }

/-- Models `getActiveJob()` read at time `now`: returns the parsed record and
the localStorage slot after the call.  A missing slot yields `none`; a record
with `now - startedAt > 600000` is cleared and `none` is returned
(api.js 38-53). -/
def getActiveJob (slot : Option ActiveJobRecord) (now : Nat) :
    Option ActiveJobRecord × Option ActiveJobRecord :=
  match slot with
  | none => (none, none)
  | some r =>
    if activeJobStaleMs < now - r.startedAt then
      (none, none)
    else
      (some r, some r)

/-- Models `clearActiveJob()` (api.js 58-64). -/
def clearActiveJob (_slot : Option ActiveJobRecord) : Option ActiveJobRecord :=
  none

/-! ## Job polling (api.js lines 675-747, `api.pollJob`)

`pollJob(jobId, onUpdate, options)` normalises `options.interval || 1000` and
`options.timeout || 300000`, then runs `doPoll`: first it checks
`Date.now() - startTime > timeout` and rejects with a polling-timeout error;
otherwise it fetches the job status.  On a successful fetch it resolves when
`status === 'completed' || status === 'failed'` and otherwise re-schedules
itself after `interval` ms; on a fetch error it re-schedules after
`interval * 2` ms.  The fetch outcomes are modelled as a function from the
attempt index to an outcome, and elapsed time as the sum of the scheduled
delays (the visibilitychange fast-path merely re-runs `doPoll` earlier and is
not modelled).  The recursion is fuelled; `timeout + 2` units of fuel are
provably enough because every re-schedule advances elapsed time by at least
one interval. -/

/-- Job status values of the progress document (spec section 3, JobProgress). -/
inductive JobStatus where
  | queued
  | running
  | completed
  | failed
  | cancelled
deriving Repr, DecidableEq

/-- Sub-status of one pipeline stage in the progress document. -/
inductive SubStatus where
  | pending
  | running
  | completed
  | failed
deriving Repr, DecidableEq

/-- Progress information for one stage: its sub-status together with opaque
payloads for `data` and `metadata` (absent fields are `none`). -/
structure StageProgress where
  status : Option SubStatus
  data : Option Nat
  metadata : Option Nat
deriving Repr, DecidableEq

/-- One fetched job snapshot (`jobData` in api.js / App.jsx): the status, the
three per-stage progress entries and the optional usage payload. -/
structure JobSnapshot where
  status : JobStatus
  stage1 : Option StageProgress
  stage2 : Option StageProgress
  stage3 : Option StageProgress
  usage : Option Nat
deriving Repr, DecidableEq

/-- Outcome of one `getJobStatus` fetch: a snapshot, or a thrown error. -/
inductive FetchOutcome where
  | ok (snap : JobSnapshot)
  | err
deriving Repr, DecidableEq

/-- The stopping test of the poll loop (api.js line 725):
`status === 'completed' || status === 'failed'`. -/
def pollStops (s : JobStatus) : Bool :=
  s = JobStatus.completed || s = JobStatus.failed

/-- Whether a fetch outcome ends the poll loop. -/
def outcomeStops (o : FetchOutcome) : Bool :=
  match o with
  | .ok snap => pollStops snap.status
  | .err => false

/-- What the spec calls a terminal job status (spec section 3: completed,
failed or cancelled).  Used to compare the code with the specification. -/
def specTerminal (s : JobStatus) : Bool :=
  s = JobStatus.completed || s = JobStatus.failed || s = JobStatus.cancelled

/-- Result of a `pollJob` run: resolution with the final snapshot, or
rejection with the polling-timeout error.  Either way the number of
`getJobStatus` requests that were issued is recorded.  `fuelOut` is an
artefact of the fuelled recursion and is proved unreachable. -/
inductive PollResult where
  | resolved (snap : JobSnapshot) (fetches : Nat)
  | timedOut (fetches : Nat)
  | fuelOut
deriving Repr, DecidableEq

/-- One `doPoll` activation and its re-scheduling, fuelled (api.js 707-742).
`elapsed` is `Date.now() - startTime` at this activation and `n` the number of
fetches already issued. -/
def pollLoop (gs : Nat → FetchOutcome) (interval timeout : Nat) :
    Nat → Nat → Nat → PollResult
  | 0, _, _ => .fuelOut
  | fuel + 1, elapsed, n =>
    if timeout < elapsed then .timedOut n
    else
      match gs n with
      | .ok snap =>
        if pollStops snap.status then .resolved snap (n + 1)
        else pollLoop gs interval timeout fuel (elapsed + interval) (n + 1)
      | .err => pollLoop gs interval timeout fuel (elapsed + 2 * interval) (n + 1)

/-- Default poll interval (api.js line 676): `options.interval || 1000`. -/
def defaultPollInterval : Nat := 1000

/-- Default poll timeout (api.js line 677): `options.timeout || 300000`. -/
def defaultPollTimeout : Nat := 300000

/-- JavaScript `x || d` on the numeric option `x` (0 and absent map to the
default; an absent option is modelled as 0). -/
def orDefault (x d : Nat) : Nat :=
  if x = 0 then d else x

/-- Models `api.pollJob(jobId, onUpdate, options)` driven by the fetch
outcomes `gs`.  The loop starts immediately with elapsed time 0 and no
fetches issued. -/
def pollJob (gs : Nat → FetchOutcome) (intervalOpt timeoutOpt : Nat) : PollResult :=
  let interval := orDefault intervalOpt defaultPollInterval
  let timeout := orDefault timeoutOpt defaultPollTimeout
  pollLoop gs interval timeout (timeout + 2) 0 0

/-- Delay scheduled after poll attempt `n` (api.js 733 and 739): `interval`
after a successful fetch, `interval * 2` after a fetch error. -/
def stepDelay (gs : Nat → FetchOutcome) (interval n : Nat) : Nat :=
  match gs n with
  | .ok _ => interval
  | .err => 2 * interval

/-- Elapsed time `Date.now() - startTime` at the start of poll attempt `k`:
the sum of the delays scheduled by attempts `0 .. k-1`. -/
def elapsedAt (gs : Nat → FetchOutcome) (interval : Nat) : Nat → Nat
  | 0 => 0
  | k + 1 => elapsedAt gs interval k + stepDelay gs interval k

/-- Boolean check that every poll attempt before `k` still met the timeout. -/
def allWithinTimeout (gs : Nat → FetchOutcome) (interval timeout : Nat) : Nat → Bool
  | 0 => true
  | k + 1 => allWithinTimeout gs interval timeout k && decide (elapsedAt gs interval k ≤ timeout)

/-- Boolean check that no poll attempt before `k` fetched a stopping
snapshot. -/
def noStopBefore (gs : Nat → FetchOutcome) : Nat → Bool
  | 0 => true
  | k + 1 => noStopBefore gs k && !(outcomeStops (gs k))

/-- Index of the first poll attempt whose elapsed time exceeds the timeout,
computed with the same fuel discipline as the loop. -/
def firstOverTimeout (gs : Nat → FetchOutcome) (interval timeout : Nat) :
    Nat → Nat → Nat → Nat
  | 0, _, n => n
  | fuel + 1, elapsed, n =>
    if timeout < elapsed then n
    else firstOverTimeout gs interval timeout fuel (elapsed + stepDelay gs interval n) (n + 1)

/-- The attempt index at which `pollJob` with the given options would reject. -/
def timeoutAttempt (gs : Nat → FetchOutcome) (intervalOpt timeoutOpt : Nat) : Nat :=
  let interval := orDefault intervalOpt defaultPollInterval
  let timeout := orDefault timeoutOpt defaultPollTimeout
  firstOverTimeout gs interval timeout (timeout + 2) 0 0

theorem orDefault_pos (x d : Nat) (hd : 0 < d) : 0 < orDefault x d := by
  unfold orDefault
  split <;> omega

theorem elapsedAt_le_succ (gs : Nat → FetchOutcome) (interval : Nat) (k : Nat) :
    elapsedAt gs interval k ≤ elapsedAt gs interval (k + 1) := by
  simp [elapsedAt]

theorem elapsedAt_mono (gs : Nat → FetchOutcome) (interval : Nat) {j k : Nat}
    (h : j ≤ k) : elapsedAt gs interval j ≤ elapsedAt gs interval k := by
  induction k with
  | zero =>
    have : j = 0 := by omega
    simp [this]
  | succ k ih =>
    rcases Nat.lt_or_ge j (k + 1) with hlt | hge
    · exact le_trans (ih (by omega)) (elapsedAt_le_succ gs interval k)
    · have : j = k + 1 := by omega
      simp [this]

theorem stepDelay_ge (gs : Nat → FetchOutcome) (interval n : Nat) :
    interval ≤ stepDelay gs interval n := by
  unfold stepDelay
  cases gs n
  · simp
  · simp
    omega

theorem elapsedAt_ge (gs : Nat → FetchOutcome) (interval : Nat) (k : Nat) :
    k * interval ≤ elapsedAt gs interval k := by
  induction k with
  | zero => simp [elapsedAt]
  | succ k ih =>
    have := stepDelay_ge gs interval k
    simp only [elapsedAt, Nat.succ_mul]
    omega

/-- Core timeout lemma: while no stopping snapshot ever arrives, the fuelled
loop rejects at the first attempt whose elapsed time exceeds the timeout, as
long as the remaining fuel covers the remaining time budget. -/
theorem pollLoop_timeout (gs : Nat → FetchOutcome) (interval timeout : Nat)
    (hNT : ∀ n, outcomeStops (gs n) = false) (hi : 0 < interval) :
    ∀ fuel elapsed n, 0 < fuel → (elapsed ≤ timeout → timeout + 2 ≤ fuel + elapsed) →
      pollLoop gs interval timeout fuel elapsed n =
        .timedOut (firstOverTimeout gs interval timeout fuel elapsed n) := by
  intro fuel
  induction fuel with
  | zero => intro elapsed n h0 _; omega
  | succ fuel ih =>
    intro elapsed n _ hbudget
    by_cases hover : timeout < elapsed
    · simp [pollLoop, firstOverTimeout, hover]
    · have hle : elapsed ≤ timeout := by omega
      have hfuel : timeout + 2 ≤ fuel + 1 + elapsed := hbudget hle
      have hrest : 0 < fuel := by omega
      have hd := stepDelay_ge gs interval n
      have hstep : ∀ d, interval ≤ d →
          (elapsed + d ≤ timeout → timeout + 2 ≤ fuel + (elapsed + d)) := by
        intro d hdle _
        omega
      cases hgs : gs n with
      | ok snap =>
        have hstop : pollStops snap.status = false := by
          have := hNT n
          rw [hgs] at this
          simpa [outcomeStops] using this
        have hdelay : stepDelay gs interval n = interval := by
          simp [stepDelay, hgs]
        simp only [pollLoop, firstOverTimeout, if_neg (by omega : ¬ timeout < elapsed),
          hgs, hstop, if_false, hdelay]
        exact ih (elapsed + interval) (n + 1) hrest (hstep interval (le_refl _))
      | err =>
        have hdelay : stepDelay gs interval n = 2 * interval := by
          simp [stepDelay, hgs]
        simp only [pollLoop, firstOverTimeout, if_neg (by omega : ¬ timeout < elapsed),
          hgs, hdelay]
        exact ih (elapsed + 2 * interval) (n + 1) hrest
          (hstep (2 * interval) (by omega))

/-- The attempt index computed by `firstOverTimeout` really is the first one
whose elapsed time exceeds the timeout. -/
theorem firstOverTimeout_spec (gs : Nat → FetchOutcome) (interval timeout : Nat)
    (hi : 0 < interval) :
    ∀ fuel n, 0 < fuel → (elapsedAt gs interval n ≤ timeout →
        timeout + 2 ≤ fuel + elapsedAt gs interval n) →
      allWithinTimeout gs interval timeout n = true →
      timeout < elapsedAt gs interval
          (firstOverTimeout gs interval timeout fuel (elapsedAt gs interval n) n) ∧
        allWithinTimeout gs interval timeout
          (firstOverTimeout gs interval timeout fuel (elapsedAt gs interval n) n) = true := by
  intro fuel
  induction fuel with
  | zero => intro n h0 _ _; omega
  | succ fuel ih =>
    intro n _ hbudget hall
    by_cases hover : timeout < elapsedAt gs interval n
    · simp only [firstOverTimeout, if_pos hover]
      exact ⟨hover, hall⟩
    · have hle : elapsedAt gs interval n ≤ timeout := by omega
      have hfuel := hbudget hle
      have hrest : 0 < fuel := by
        have := stepDelay_ge gs interval n
        omega
      have hnext : elapsedAt gs interval n + stepDelay gs interval n =
          elapsedAt gs interval (n + 1) := rfl
      have hall1 : allWithinTimeout gs interval timeout (n + 1) = true := by
        simp [allWithinTimeout, hall, hle]
      have hbudget1 : elapsedAt gs interval (n + 1) ≤ timeout →
          timeout + 2 ≤ fuel + elapsedAt gs interval (n + 1) := by
        intro _
        have h1 : elapsedAt gs interval n + 1 ≤ elapsedAt gs interval (n + 1) := by
          have h2 := stepDelay_ge gs interval n
          have h3 : elapsedAt gs interval (n + 1) =
              elapsedAt gs interval n + stepDelay gs interval n := rfl
          omega
        omega
      simp only [firstOverTimeout, if_neg hover, hnext]
      exact ih (n + 1) hrest hbudget1 hall1

/-- Core resolution lemma: the fuelled loop resolves with the snapshot of the
first stopping fetch outcome, provided elapsed time at that attempt is still
within the timeout, and it issues exactly `K + 1` fetches. -/
theorem pollLoop_resolve (gs : Nat → FetchOutcome) (interval timeout : Nat)
    (K : Nat) (snap : JobSnapshot) (hK : gs K = .ok snap)
    (hstop : pollStops snap.status = true)
    (hT : elapsedAt gs interval K ≤ timeout) :
    ∀ fuel n, n ≤ K → (∀ k, n ≤ k → k < K → outcomeStops (gs k) = false) →
      K + 1 ≤ fuel + n →
      pollLoop gs interval timeout fuel (elapsedAt gs interval n) n =
        .resolved snap (K + 1) := by
  intro fuel
  induction fuel with
  | zero => intro n hn _ hbudget; omega
  | succ fuel ih =>
    intro n hn hns hbudget
    have hle : elapsedAt gs interval n ≤ timeout :=
      le_trans (elapsedAt_mono gs interval hn) hT
    rcases Nat.lt_or_ge n K with hlt | hge
    · have hnstop : outcomeStops (gs n) = false := hns n (le_refl n) hlt
      cases hgs : gs n with
      | ok snap1 =>
        have hs1 : pollStops snap1.status = false := by
          have := hnstop
          rw [hgs] at this
          simpa [outcomeStops] using this
        have hnext : elapsedAt gs interval n + interval = elapsedAt gs interval (n + 1) := by
          simp [elapsedAt, stepDelay, hgs]
        simp only [pollLoop, if_neg (by omega : ¬ timeout < elapsedAt gs interval n),
          hgs, hs1, if_false, hnext]
        exact ih (n + 1) (by omega) (fun k hk1 hk2 => hns k (by omega) hk2) (by omega)
      | err =>
        have hnext : elapsedAt gs interval n + 2 * interval =
            elapsedAt gs interval (n + 1) := by
          simp [elapsedAt, stepDelay, hgs]
        simp only [pollLoop, if_neg (by omega : ¬ timeout < elapsedAt gs interval n),
          hgs, hnext]
        exact ih (n + 1) (by omega) (fun k hk1 hk2 => hns k (by omega) hk2) (by omega)
    · have hnK : n = K := by omega
      subst hnK
      simp [pollLoop, if_neg (by omega : ¬ timeout < elapsedAt gs interval n), hK, hstop]

/-- Conversion from the boolean prefix check to the pointwise statement. -/
theorem noStopBefore_spec (gs : Nat → FetchOutcome) {K : Nat}
    (h : noStopBefore gs K = true) :
    ∀ k, k < K → outcomeStops (gs k) = false := by
  induction K with
  | zero => intro k hk; omega
  | succ K ih =>
    intro k hk
    simp only [noStopBefore, Bool.and_eq_true, Bool.not_eq_true'] at h
    rcases Nat.lt_or_ge k K with hlt | hge
    · exact ih h.1 k hlt
    · have : k = K := by omega
      rw [this]
      exact h.2

/-! ### Claim C6 -/

/-- C6: polling never hangs silently.  If the fetched snapshots never reach a
status of completed or failed — fetch errors included, since `outcomeStops` is
false for thrown fetches — `api.pollJob` rejects with the polling-timeout
error at the first poll attempt whose elapsed time exceeds the (defaulted)
timeout option, having issued exactly `timeoutAttempt` fetches, and the
fuelled recursion stops there, scheduling no further polls. -/
theorem pollJob_timeout_on_nonterminal (gs : Nat → FetchOutcome)
    (intervalOpt timeoutOpt : Nat)
    (hNT : ∀ n, outcomeStops (gs n) = false) :
    pollJob gs intervalOpt timeoutOpt =
        .timedOut (timeoutAttempt gs intervalOpt timeoutOpt) ∧
      orDefault timeoutOpt defaultPollTimeout <
        elapsedAt gs (orDefault intervalOpt defaultPollInterval)
          (timeoutAttempt gs intervalOpt timeoutOpt) ∧
      allWithinTimeout gs (orDefault intervalOpt defaultPollInterval)
          (orDefault timeoutOpt defaultPollTimeout)
          (timeoutAttempt gs intervalOpt timeoutOpt) = true := by
  have hi : 0 < orDefault intervalOpt defaultPollInterval :=
    orDefault_pos _ _ (by simp [defaultPollInterval])
  constructor
  · exact pollLoop_timeout gs _ _ hNT hi _ 0 0 (by omega) (by omega)
  · have h0 : elapsedAt gs (orDefault intervalOpt defaultPollInterval) 0 = 0 := rfl
    have := firstOverTimeout_spec gs (orDefault intervalOpt defaultPollInterval)
      (orDefault timeoutOpt defaultPollTimeout) hi
      (orDefault timeoutOpt defaultPollTimeout + 2) 0 (by omega)
      (by rw [h0]; omega) (by simp [allWithinTimeout])
    rw [h0] at this
    exact this

/-- Witness for C6 at a stream that always throws, with interval 1 and
timeout 5: the loop rejects at attempt 3 (elapsed times 0, 2, 4, then 6). -/
theorem pollJob_timeout_on_nonterminal_witness :
    pollJob (fun _ => FetchOutcome.err) 1 5 =
        .timedOut (timeoutAttempt (fun _ => FetchOutcome.err) 1 5) ∧
      orDefault 5 defaultPollTimeout <
        elapsedAt (fun _ => FetchOutcome.err) (orDefault 1 defaultPollInterval)
          (timeoutAttempt (fun _ => FetchOutcome.err) 1 5) ∧
      allWithinTimeout (fun _ => FetchOutcome.err) (orDefault 1 defaultPollInterval)
          (orDefault 5 defaultPollTimeout)
          (timeoutAttempt (fun _ => FetchOutcome.err) 1 5) = true :=
  pollJob_timeout_on_nonterminal (fun _ => FetchOutcome.err) 1 5 (fun _ => rfl)

/-! ### Claim C2 -/

/-- A snapshot with status `cancelled`, with no stage data. -/
def cancelledSnap : JobSnapshot :=
  { status := JobStatus.cancelled, stage1 := none, stage2 := none, stage3 := none,
    usage := none }

/-- A snapshot with status `completed`, with no stage data. -/
def completedSnap : JobSnapshot :=
  { status := JobStatus.completed, stage1 := none, stage2 := none, stage3 := none,
    usage := none }

/-- A snapshot with status `running`, with no stage data. -/
def runningSnap : JobSnapshot :=
  { status := JobStatus.running, stage1 := none, stage2 := none, stage3 := none,
    usage := none }

/-- Fetch outcomes whose first snapshot is `cancelled` and whose later
snapshots are `completed`. -/
def cancelThenComplete : Nat → FetchOutcome := fun n =>
  if n = 0 then .ok cancelledSnap else .ok completedSnap

/-- C2 counterexample: `cancelled` is a terminal status in the specification,
and it is the first fetched snapshot here, yet `pollJob` does not resolve with
it: it keeps polling and resolves with the second snapshot (`completed`) after
issuing a second status request. -/
theorem pollJob_ignores_cancelled_cex :
    cancelThenComplete 0 = .ok cancelledSnap ∧
      specTerminal cancelledSnap.status = true ∧
      pollJob cancelThenComplete 1 10 = .resolved completedSnap 2 ∧
      pollJob cancelThenComplete 1 10 ≠ .resolved cancelledSnap 1 := by
  refine ⟨rfl, rfl, ?_, ?_⟩ <;> decide

/-- C2 (amended): `pollJob` resolves with the first fetched snapshot whose
status is completed or failed — a `cancelled` snapshot does not stop the
loop — and it issues exactly `K + 1` status requests when that snapshot is
the `K`-th fetch, provided the attempt still falls within the timeout. -/
theorem pollJob_resolves_first_stop (gs : Nat → FetchOutcome)
    (intervalOpt timeoutOpt K : Nat) (snap : JobSnapshot)
    (hK : gs K = .ok snap) (hstop : pollStops snap.status = true)
    (hbefore : noStopBefore gs K = true)
    (hT : elapsedAt gs (orDefault intervalOpt defaultPollInterval) K ≤
      orDefault timeoutOpt defaultPollTimeout) :
    pollJob gs intervalOpt timeoutOpt = .resolved snap (K + 1) := by
  have hi : 0 < orDefault intervalOpt defaultPollInterval :=
    orDefault_pos _ _ (by simp [defaultPollInterval])
  have hKle : K ≤ orDefault timeoutOpt defaultPollTimeout := by
    have := elapsedAt_ge gs (orDefault intervalOpt defaultPollInterval) K
    have := hT
    nlinarith
  have h0 : elapsedAt gs (orDefault intervalOpt defaultPollInterval) 0 = 0 := rfl
  have := pollLoop_resolve gs (orDefault intervalOpt defaultPollInterval)
    (orDefault timeoutOpt defaultPollTimeout) K snap hK hstop hT
    (orDefault timeoutOpt defaultPollTimeout + 2) 0 (by omega)
    (fun k _ hk2 => noStopBefore_spec gs hbefore k hk2) (by omega)
  rw [h0] at this
  exact this

/-- Witness for the amended C2: a running snapshot followed by a completed
one; `pollJob` resolves with the completed snapshot after two fetches. -/
theorem pollJob_resolves_first_stop_witness :
    pollJob (fun n => if n = 0 then .ok runningSnap else .ok completedSnap) 1 10 =
      .resolved completedSnap 2 :=
  pollJob_resolves_first_stop
    (fun n => if n = 0 then .ok runningSnap else .ok completedSnap) 1 10 1
    completedSnap rfl rfl (by decide) (by decide)

/-! ### Claim C5 -/

/-- C5 counterexample: at exactly 600000 ms after `saveActiveJob`, the code
still returns the record, although fewer than 600000 ms have *not* elapsed —
the staleness test at api.js line 44 uses a strict `>`. -/
theorem getActiveJob_boundary_cex :
    (getActiveJob (saveActiveJob 1 2 3 0) 600000).1 =
        some { jobId := 1, conversationId := 2, projectId := 3, startedAt := 0 } ∧
      ¬ (600000 - 0 < activeJobStaleMs) := by
  decide

/-- C5 (amended): `getActiveJob` returns the record stored by the most recent
`saveActiveJob(jobId, conversationId, projectId)` if and only if **at most**
600000 ms have elapsed since it was saved; a record strictly older than the
threshold is removed from storage and `null` is returned. -/
theorem getActiveJob_staleness (jobId conversationId projectId savedAt now : Nat) :
    ((getActiveJob (saveActiveJob jobId conversationId projectId savedAt) now).1 =
        some { jobId := jobId, conversationId := conversationId,
               projectId := projectId, startedAt := savedAt } ↔
      now - savedAt ≤ activeJobStaleMs) ∧
    (activeJobStaleMs < now - savedAt →
      getActiveJob (saveActiveJob jobId conversationId projectId savedAt) now =
        (none, none)) := by
  constructor
  · constructor
    · intro h
      by_contra hgt
      simp only [getActiveJob, saveActiveJob] at h
      rw [if_pos (by omega)] at h
      exact Option.noConfusion h
    · intro hle
      simp only [getActiveJob, saveActiveJob]
      rw [if_neg (by omega)]
  · intro hgt
    simp only [getActiveJob, saveActiveJob]
    rw [if_pos (by omega)]

/-! ### Claim C4: resuming a persisted active job on mount
(App.jsx lines 469-533, `resumeActiveJob`)

On mount the client reads the persisted record with `getActiveJob()`, skips
when there is none or its `projectId` differs from the current project, and
otherwise fetches the job status with `api.getJobStatus(jobId)`.  When the
status is completed or failed it clears the record and re-opens the
conversation; otherwise it re-opens the conversation, restores the per-stage
loading flags from `progress.stageN.status === 'running'`, and re-enters
`pollJobAndUpdateUI(jobId)` on the same job id (whose resolution behaviour is
the `pollJob` model above).  A thrown status fetch clears the record. -/

/-- Per-stage loading flags of the partial assistant message. -/
structure LoadingFlags where
  stage1 : Bool
  stage2 : Bool
  stage3 : Bool
deriving Repr, DecidableEq

/-- Test `progress?.stageN?.status === 'running'` (App.jsx 509-511). -/
def stageRunning (p : Option StageProgress) : Bool :=
  match p with
  | some sp => sp.status = some SubStatus.running
  | none => false

/-- What the mount-time resume effect decides to do. -/
inductive ResumeStep where
  | noRecord
  | projectMismatch
  | reopenFinished (conversationId : Nat)
  | resumePolling (conversationId : Nat) (jobId : Nat) (flags : LoadingFlags)
  | fetchFailed
deriving Repr, DecidableEq

/-- Models `resumeActiveJob` (App.jsx 470-530): the chosen step together with
the localStorage slot after the decision. -/
def resumeActiveJob (slot : Option ActiveJobRecord) (now currentProjectId : Nat)
    (fetch : Nat → Except Unit JobSnapshot) : ResumeStep × Option ActiveJobRecord :=
  let read := getActiveJob slot now
  match read.1 with
  | none => (.noRecord, read.2)
  | some r =>
    if r.projectId ≠ currentProjectId then (.projectMismatch, read.2)
    else
      match fetch r.jobId with
      | .error _ => (.fetchFailed, clearActiveJob read.2)
      | .ok jobData =>
        if pollStops jobData.status then
          (.reopenFinished r.conversationId, clearActiveJob read.2)
        else
          (.resumePolling r.conversationId r.jobId
            { stage1 := stageRunning jobData.stage1,
              stage2 := stageRunning jobData.stage2,
              stage3 := stageRunning jobData.stage3 }, read.2)

/-- C4: with a fresh persisted record whose project matches, the client
fetches the job's status; a completed/failed status clears the record and
re-opens the conversation, and any other status re-opens the conversation,
restores the loading flags from the running sub-statuses, and resumes polling
the same job id. -/
theorem resumeActiveJob_spec (slot : Option ActiveJobRecord)
    (now currentProjectId : Nat) (fetch : Nat → Except Unit JobSnapshot)
    (r : ActiveJobRecord) (snap : JobSnapshot)
    (hr : (getActiveJob slot now).1 = some r)
    (hp : r.projectId = currentProjectId)
    (hf : fetch r.jobId = .ok snap) :
    resumeActiveJob slot now currentProjectId fetch =
      if pollStops snap.status then
        (.reopenFinished r.conversationId, none)
      else
        (.resumePolling r.conversationId r.jobId
          { stage1 := stageRunning snap.stage1,
            stage2 := stageRunning snap.stage2,
            stage3 := stageRunning snap.stage3 }, (getActiveJob slot now).2) := by
  simp only [resumeActiveJob]
  rw [hr]
  simp only [hp, ne_eq, not_true_eq_false, if_false, hf, clearActiveJob]

/-- A running snapshot whose stage 2 is in progress, used in the C4 witness. -/
def stage2RunningSnap : JobSnapshot :=
  { status := JobStatus.running, stage1 := none,
    stage2 := some { status := some SubStatus.running, data := none, metadata := none },
    stage3 := none, usage := none }

/-- Witness for C4: a record saved at time 0 and read at time 5 for the
matching project 3, with the job still running and stage2 in progress. -/
theorem resumeActiveJob_spec_witness :
    resumeActiveJob (saveActiveJob 7 2 3 0) 5 3 (fun _ => .ok stage2RunningSnap) =
      (.resumePolling 2 7 { stage1 := false, stage2 := true, stage3 := false },
        some { jobId := 7, conversationId := 2, projectId := 3, startedAt := 0 }) := by
  have h := resumeActiveJob_spec (saveActiveJob 7 2 3 0) 5 3
    (fun _ => .ok stage2RunningSnap)
    { jobId := 7, conversationId := 2, projectId := 3, startedAt := 0 }
    stage2RunningSnap (by decide) rfl rfl
  simpa [stage2RunningSnap, stageRunning, pollStops] using h

/-! ### Claim C1: the client after the user's stop action
(App.jsx lines 299-321 `handleStopGeneration`, 327-466 `pollJobAndUpdateUI`)

`pollJobAndUpdateUI` installs an `onUpdate` callback that applies each fetched
snapshot to the last assistant message, de-duplicated through the poller-local
`lastStage` variable.  `handleStopGeneration` aborts `abortControllerRef`
(which is never assigned in the job-based flow, so the abort is a no-op),
resets `isLoading`, clears the loading flags of the last assistant message and
clears the persisted active job — but it neither cancels the backend job nor
stops the `pollJob` loop, whose callback keeps firing. -/

/-- Message roles. -/
inductive Role where
  | user
  | assistant
deriving Repr, DecidableEq

/-- One conversation message as App.jsx builds it (stage payloads opaque). -/
structure Message where
  role : Role
  stage1 : Option Nat
  stage2 : Option Nat
  stage3 : Option Nat
  metadata : Option Nat
  usage : Option Nat
  loading : LoadingFlags
deriving Repr, DecidableEq

/-- De-duplication tags held in `lastStage` (App.jsx 329-418). -/
inductive StageTag where
  | s1run
  | s1comp
  | s2run
  | s2comp
  | s3run
  | s3comp
deriving Repr, DecidableEq

/-- The client state touched by the job flow: the open conversation, the
loading flag, the persisted active job and the poller's `lastStage`. -/
structure ClientState where
  conversation : Option (List Message)
  isLoading : Bool
  activeJob : Option ActiveJobRecord
  lastStage : Option StageTag
deriving Repr, DecidableEq

/-- Applies `f` to the last message when it exists and is an assistant
message, mirroring the `lastIdx`/role guard of every updater in App.jsx. -/
def updateLastAssistant (f : Message → Message) : List Message → List Message
  | [] => []
  | [m] => if m.role = Role.assistant then [f m] else [m]
  | m :: rest => m :: updateLastAssistant f rest

/-- Test `progress?.stageN?.status === 'completed' && progress?.stageN?.data`
(App.jsx 352, 384, 417). -/
def stageCompletedWithData (p : Option StageProgress) : Bool :=
  match p with
  | some sp => sp.status = some SubStatus.completed && sp.data.isSome
  | none => false

/-- The `data` payload of a stage entry. -/
def stageData (p : Option StageProgress) : Option Nat :=
  match p with
  | some sp => sp.data
  | none => none

/-- The `metadata` payload of a stage entry. -/
def stageMeta (p : Option StageProgress) : Option Nat :=
  match p with
  | some sp => sp.metadata
  | none => none

/-- The `onUpdate` callback of `pollJobAndUpdateUI` (App.jsx 333-463): the
seven guarded updates applied in source order to the client state. -/
def applyJobUpdate (jobData : JobSnapshot) (st : ClientState) : ClientState :=
  let st :=
    if stageRunning jobData.stage1 && !(st.lastStage = some StageTag.s1run) then
      { st with
        lastStage := some StageTag.s1run
        conversation := st.conversation.map (updateLastAssistant
          (fun m => { m with loading := { m.loading with stage1 := true } })) }
    else st
  let st :=
    if stageCompletedWithData jobData.stage1 && !(st.lastStage = some StageTag.s1comp) then
      { st with
        lastStage := some StageTag.s1comp
        conversation := st.conversation.map (updateLastAssistant
          (fun m => { m with
                      stage1 := stageData jobData.stage1
                      loading := { m.loading with stage1 := false } })) }
    else st
  let st :=
    if stageRunning jobData.stage2 && !(st.lastStage = some StageTag.s2run) then
      { st with
        lastStage := some StageTag.s2run
        conversation := st.conversation.map (updateLastAssistant
          (fun m => { m with loading := { m.loading with stage2 := true } })) }
    else st
  let st :=
    if stageCompletedWithData jobData.stage2 && !(st.lastStage = some StageTag.s2comp) then
      { st with
        lastStage := some StageTag.s2comp
        conversation := st.conversation.map (updateLastAssistant
          (fun m => { m with
                      stage2 := stageData jobData.stage2
                      metadata := stageMeta jobData.stage2
                      loading := { m.loading with stage2 := false } })) }
    else st
  let st :=
    if stageRunning jobData.stage3 && !(st.lastStage = some StageTag.s3run) then
      { st with
        lastStage := some StageTag.s3run
        conversation := st.conversation.map (updateLastAssistant
          (fun m => { m with loading := { m.loading with stage3 := true } })) }
    else st
  let st :=
    if stageCompletedWithData jobData.stage3 && !(st.lastStage = some StageTag.s3comp) then
      { st with
        lastStage := some StageTag.s3comp
        conversation := st.conversation.map (updateLastAssistant
          (fun m => { m with
                      stage3 := stageData jobData.stage3
                      loading := { m.loading with stage3 := false } })) }
    else st
  if jobData.status = JobStatus.completed then
    { st with
      conversation := st.conversation.map (updateLastAssistant
        (fun m => { m with usage := some (match jobData.usage with
          | some u => u
          | none => 0) })) }
  else st

/-- Models `handleStopGeneration` (App.jsx 299-321): `abort()` on the never-
assigned controller is a no-op, `isLoading` is reset, the last assistant
message's loading flags are cleared, and the active job is cleared.  The
poller's `lastStage` and the poll loop itself are untouched. -/
def handleStopGeneration (st : ClientState) : ClientState :=
  { st with
    isLoading := false
    conversation := st.conversation.map (updateLastAssistant
      (fun m => { m with loading := { stage1 := false, stage2 := false, stage3 := false } }))
    activeJob := none }

/-- Interleaved client events: a delivered poll snapshot or the user's stop. -/
inductive ClientEvent where
  | poll (jobData : JobSnapshot)
  | stop
deriving Repr, DecidableEq

/-- One client transition. -/
def clientStep (st : ClientState) : ClientEvent → ClientState
  | .poll jobData => applyJobUpdate jobData st
  | .stop => handleStopGeneration st

/-- A run of the client over an event trace. -/
def runClient (st : ClientState) (evs : List ClientEvent) : ClientState :=
  evs.foldl clientStep st

/-- Stage-2 payload of the last message of the open conversation. -/
def lastStage2 (st : ClientState) : Option Nat :=
  match st.conversation with
  | some msgs =>
    match msgs.getLast? with
    | some m => m.stage2
    | none => none
  | none => none

/-- The freshly-submitted turn: the user message plus the empty partial
assistant message (App.jsx 547-571). -/
def initialTurn : List Message :=
  [ { role := Role.user, stage1 := none, stage2 := none, stage3 := none,
      metadata := none, usage := none,
      loading := { stage1 := false, stage2 := false, stage3 := false } },
    { role := Role.assistant, stage1 := none, stage2 := none, stage3 := none,
      metadata := none, usage := none,
      loading := { stage1 := false, stage2 := false, stage3 := false } } ]

/-- Client state right after the job was created (App.jsx 578-591). -/
def initialClientState : ClientState :=
  { conversation := some initialTurn, isLoading := true,
    activeJob := saveActiveJob 7 2 3 0, lastStage := none }

/-- Snapshot: stage 1 running. -/
def snapStage1Running : JobSnapshot :=
  { status := JobStatus.running,
    stage1 := some { status := some SubStatus.running, data := none, metadata := none },
    stage2 := none, stage3 := none, usage := none }

/-- Snapshot: stage 1 completed with data. -/
def snapStage1Done : JobSnapshot :=
  { status := JobStatus.running,
    stage1 := some { status := some SubStatus.completed, data := some 1, metadata := none },
    stage2 := none, stage3 := none, usage := none }

/-- Snapshot fetched after the stop: stage 2 completed with data. -/
def snapStage2Done : JobSnapshot :=
  { status := JobStatus.running,
    stage1 := some { status := some SubStatus.completed, data := some 1, metadata := none },
    stage2 := some { status := some SubStatus.completed, data := some 2, metadata := some 5 },
    stage3 := none, usage := none }

/-- C1 evaluation: the user stops the job after stage 1 completed; the stop
completes (`isLoading` false, active job cleared, no stage-2 data yet), but
the still-running poll loop then applies the later stage-2 completion data to
the assistant message — the cancellation is not monotonic in the client. -/
theorem stop_does_not_stop_updates :
    lastStage2 (runClient initialClientState
        [ClientEvent.poll snapStage1Running, ClientEvent.poll snapStage1Done,
         ClientEvent.stop]) = none ∧
      (runClient initialClientState
        [ClientEvent.poll snapStage1Running, ClientEvent.poll snapStage1Done,
         ClientEvent.stop]).isLoading = false ∧
      (runClient initialClientState
        [ClientEvent.poll snapStage1Running, ClientEvent.poll snapStage1Done,
         ClientEvent.stop]).activeJob = none ∧
      lastStage2 (runClient initialClientState
        [ClientEvent.poll snapStage1Running, ClientEvent.poll snapStage1Done,
         ClientEvent.stop, ClientEvent.poll snapStage2Done]) = some 2 := by
  refine ⟨?_, ?_, ?_, ?_⟩ <;> decide

/-! ### Claim C9: the password gate on mount
(App.jsx lines 6-14 and 47-74, api.js lines 79-96)

App.jsx imports `hasProjectPassword` from `./api`, but api.js exports no such
binding (it exports `setProjectPassword`/`clearProjectPassword` only).  Under
a bundler the imported name is undefined and the guard call
`authStatus.has_password && !hasProjectPassword()` throws a TypeError inside
the surrounding try block; the catch logs and falls through, so the password
dialog never opens and `loadConversations()`/`loadProjects()` run without
verification.  (Under native ESM the module would fail to link outright.) -/

/-- The named bindings exported by api.js. -/
def apiJsExports : List String :=
  ["saveActiveJob", "getActiveJob", "clearActiveJob", "setProjectId",
   "getProjectId", "setProjectPassword", "clearProjectPassword",
   "collectSessionMetadata", "api"]

/-- The bindings App.jsx imports from './api' (App.jsx lines 6-14). -/
def appApiImports : List String :=
  ["api", "getProjectId", "setProjectId", "getActiveJob", "saveActiveJob",
   "clearActiveJob", "hasProjectPassword"]

/-- Whether a name imported from './api' is bound to a callable export. -/
def importBound (name : String) : Bool :=
  apiJsExports.contains name

/-- Outcome of the mount-time `initializeProject` (App.jsx 48-71). -/
inductive InitOutcome where
  | showPasswordDialog
  | loadData
deriving Repr, DecidableEq

/-- Models `initializeProject`: inside the try block the guard
`authStatus.has_password && !hasProjectPassword()` short-circuits on a false
`has_password`; calling the unbound import throws, the catch falls through,
and execution continues to `loadConversations()`/`loadProjects()`. -/
def initializeProject (authStatusKnown hasPassword sessionPasswordSet : Bool) :
    InitOutcome :=
  if authStatusKnown then
    if hasPassword then
      if importBound "hasProjectPassword" then
        if sessionPasswordSet then .loadData else .showPasswordDialog
      else .loadData
    else .loadData
  else .loadData

/-- C9 evaluation: `hasProjectPassword` is imported but not exported, and for
a password-protected project with no password entered this session the
initialization loads the data instead of opening the password dialog. -/
theorem passwordGate_broken_import :
    appApiImports.contains "hasProjectPassword" = true ∧
      apiJsExports.contains "hasProjectPassword" = false ∧
      initializeProject true true false = InitOutcome.loadData ∧
      initializeProject true true false ≠ InitOutcome.showPasswordDialog := by
  refine ⟨?_, ?_, ?_, ?_⟩ <;> decide

/-! ### Claims C3 and C10: the SSE reader
(api.js lines 367-451, `api.sendMessageStream`)

The reader pulls byte chunks from `response.body.getReader()`, decodes them
with a streaming `TextDecoder('utf-8', {stream: true})`, appends to a string
buffer, repeatedly extracts complete event blocks (terminated by `"\n\n"`),
splits each block into lines, and for every line starting with `"data: "`
with a non-empty payload JSON-parses the payload and calls
`onEvent(event.type, event)`; a JSON parse error is logged and the line is
skipped.  When the stream ends, whatever is left in the buffer is only
warned about, never processed.

Embedding: text is a list of Unicode code points, the wire is a list of
bytes, and the streaming decoder is a byte-by-byte state machine (`decStep`)
whose carry state makes it oblivious to chunk boundaries — exactly the
guarantee of `{stream: true}`.  `JSON.parse` and the `event.type` property
access are browser primitives and are abstracted as `parse` and `typeOf`. -/

/-- Carry state of the streaming UTF-8 decoder: the code-point bits
accumulated so far and the number of continuation bytes still expected. -/
structure DecState where
  acc : Nat
  need : Nat
deriving Repr, DecidableEq

/-- The initial (and between-characters) decoder state. -/
def cleanDec : DecState := { acc := 0, need := 0 }

/-- One byte of streaming UTF-8 decoding: lead bytes open a 2-, 3- or 4-byte
sequence, continuation bytes shift into the accumulator, and a completed
sequence (or an ASCII byte) emits one code point. -/
def decStep (s : DecState) (b : Nat) : DecState × List Nat :=
  if s.need = 0 then
    if b < 128 then (s, [b])
    else if b < 224 then ({ acc := b - 192, need := 1 }, [])
    else if b < 240 then ({ acc := b - 224, need := 2 }, [])
    else ({ acc := b - 240, need := 3 }, [])
  else
    let acc2 := s.acc * 64 + (b - 128)
    if s.need = 1 then ({ acc := 0, need := 0 }, [acc2])
    else ({ acc := acc2, need := s.need - 1 }, [])

/-- Streaming decode of one chunk: a fold of `decStep` that threads the
carry state and concatenates the emitted code points. -/
def decodeChunk (s : DecState) : List Nat → DecState × List Nat
  | [] => (s, [])
  | b :: bs =>
    let p := decStep s b
    let q := decodeChunk p.1 bs
    (q.1, p.2 ++ q.2)

/-- UTF-8 encoding of one code point. -/
def utf8EncodeChar (c : Nat) : List Nat :=
  if c < 128 then [c]
  else if c < 2048 then [192 + c / 64, 128 + c % 64]
  else if c < 65536 then [224 + c / 4096, 128 + (c / 64) % 64, 128 + c % 64]
  else [240 + c / 262144, 128 + (c / 4096) % 64, 128 + (c / 64) % 64, 128 + c % 64]

/-- UTF-8 encoding of a code-point sequence. -/
def utf8Encode (s : List Nat) : List Nat :=
  (s.map utf8EncodeChar).flatten

theorem decodeChunk_append (s : DecState) (xs ys : List Nat) :
    decodeChunk s (xs ++ ys) =
      ((decodeChunk (decodeChunk s xs).1 ys).1,
        (decodeChunk s xs).2 ++ (decodeChunk (decodeChunk s xs).1 ys).2) := by
  induction xs generalizing s with
  | nil => simp [decodeChunk]
  | cons b bs ih =>
    simp only [List.cons_append, decodeChunk, List.append_eq]
    rw [ih]
    simp [List.append_assoc]

theorem decode_encodeChar (c : Nat) (hc : c < 1114112) :
    decodeChunk cleanDec (utf8EncodeChar c) = (cleanDec, [c]) := by
  by_cases h1 : c < 128
  · simp [utf8EncodeChar, decodeChunk, decStep, cleanDec, h1]
  · by_cases h2 : c < 2048
    · have ha : ¬ (192 + c / 64 < 128) := by omega
      have hb : 192 + c / 64 < 224 := by omega
      simp only [utf8EncodeChar, if_neg h1, if_pos h2, decodeChunk, decStep, cleanDec]
      simp only [ha, hb, if_true, if_false, if_neg ha, if_pos hb]
      norm_num
      omega
    · by_cases h3 : c < 65536
      · have ha : ¬ (224 + c / 4096 < 128) := by omega
        have hb : ¬ (224 + c / 4096 < 224) := by omega
        have hcc : 224 + c / 4096 < 240 := by omega
        simp only [utf8EncodeChar, if_neg h1, if_neg h2, if_pos h3, decodeChunk, decStep,
          cleanDec]
        simp only [if_neg ha, if_neg hb, if_pos hcc]
        norm_num
        omega
      · have ha : ¬ (240 + c / 262144 < 128) := by omega
        have hb : ¬ (240 + c / 262144 < 224) := by omega
        have hcc : ¬ (240 + c / 262144 < 240) := by omega
        simp only [utf8EncodeChar, if_neg h1, if_neg h2, if_neg h3, decodeChunk, decStep,
          cleanDec]
        simp only [if_neg ha, if_neg hb, if_neg hcc]
        norm_num
        omega

theorem decode_encode (s : List Nat) (hv : ∀ c ∈ s, c < 1114112) :
    decodeChunk cleanDec (utf8Encode s) = (cleanDec, s) := by
  induction s with
  | nil => simp [utf8Encode, decodeChunk]
  | cons c cs ih =>
    have hc : c < 1114112 := hv c (by simp)
    have hcs : ∀ x ∈ cs, x < 1114112 := fun x hx => hv x (by simp [hx])
    have e : utf8Encode (c :: cs) = utf8EncodeChar c ++ utf8Encode cs := by
      simp [utf8Encode]
    rw [e, decodeChunk_append, decode_encodeChar c hc, ih hcs]
    simp

/-- First occurrence of the SSE event separator `"\n\n"` in the buffer
(api.js line 415, `buffer.indexOf('\n\n')`): the complete event block before
it and the remaining buffer after it, or `none` when no separator occurs. -/
def splitFirst : List Nat → Option (List Nat × List Nat)
  | [] => none
  | [_] => none
  | a :: b :: rest =>
    if a = 10 ∧ b = 10 then some ([], rest)
    else (splitFirst (b :: rest)).map (fun p => (a :: p.1, p.2))

theorem splitFirst_decomp :
    ∀ {x blk r : List Nat}, splitFirst x = some (blk, r) →
      x = blk ++ 10 :: 10 :: r := by
  intro x
  induction x with
  | nil => intro blk r h; simp [splitFirst] at h
  | cons a rest ih =>
    intro blk r h
    cases rest with
    | nil => simp [splitFirst] at h
    | cons b rest2 =>
      by_cases hab : a = 10 ∧ b = 10
      · simp only [splitFirst, if_pos hab, Option.some.injEq, Prod.mk.injEq] at h
        obtain ⟨h1, h2⟩ := h
        subst h1
        subst h2
        simp [hab.1, hab.2]
      · simp only [splitFirst, if_neg hab] at h
        cases hs : splitFirst (b :: rest2) with
        | none => simp [hs] at h
        | some p =>
          obtain ⟨blk2, r2⟩ := p
          rw [hs, Option.map_some'] at h
          simp only [Option.some.injEq, Prod.mk.injEq] at h
          obtain ⟨h1, h2⟩ := h
          subst h2
          rw [← h1]
          have hx := ih hs
          simp only [List.cons_append]
          rw [← hx]

theorem splitFirst_length {x blk r : List Nat} (h : splitFirst x = some (blk, r)) :
    r.length + 2 ≤ x.length := by
  have := splitFirst_decomp h
  subst this
  simp

theorem splitFirst_append {x blk r : List Nat} (y : List Nat)
    (h : splitFirst x = some (blk, r)) :
    splitFirst (x ++ y) = some (blk, r ++ y) := by
  induction x generalizing blk with
  | nil => simp [splitFirst] at h
  | cons a rest ih =>
    cases rest with
    | nil => simp [splitFirst] at h
    | cons b rest2 =>
      by_cases hab : a = 10 ∧ b = 10
      · simp only [splitFirst, if_pos hab, Option.some.injEq, Prod.mk.injEq] at h
        obtain ⟨h1, h2⟩ := h
        subst h1
        subst h2
        simp [splitFirst, hab]
      · simp only [splitFirst, if_neg hab] at h
        cases hs : splitFirst (b :: rest2) with
        | none => simp [hs] at h
        | some p =>
          obtain ⟨blk2, r2⟩ := p
          rw [hs, Option.map_some'] at h
          simp only [Option.some.injEq, Prod.mk.injEq] at h
          obtain ⟨h1, h2⟩ := h
          subst h2
          have hrec := ih hs
          simp only [List.cons_append] at hrec ⊢
          simp only [splitFirst, if_neg hab]
          rw [hrec, Option.map_some']
          simp [← h1]

/-- Fuelled version of the `while ((eventEndIndex = buffer.indexOf('\n\n')) !== -1)`
extraction loop (api.js 415-419): the complete blocks in order, and the
remaining (separator-free) buffer. -/
def extractLoop : Nat → List Nat → List (List Nat) × List Nat
  | 0, buf => ([], buf)
  | fuel + 1, buf =>
    (splitFirst buf).elim ([], buf)
      (fun p => (p.1 :: (extractLoop fuel p.2).1, (extractLoop fuel p.2).2))

/-- Extraction of all complete event blocks from the buffer; the buffer's
length is always enough fuel because each extracted block consumes at least
the two separator bytes. -/
def extractBlocks (buf : List Nat) : List (List Nat) × List Nat :=
  extractLoop buf.length buf

theorem extractLoop_congr :
    ∀ n m buf, buf.length ≤ n → buf.length ≤ m →
      extractLoop n buf = extractLoop m buf := by
  intro n
  induction n with
  | zero =>
    intro m buf h1 _
    have hb : buf = [] := List.eq_nil_of_length_eq_zero (by omega)
    subst hb
    cases m with
    | zero => rfl
    | succ m => simp [extractLoop, splitFirst]
  | succ n ih =>
    intro m buf h1 h2
    cases m with
    | zero =>
      have hb : buf = [] := List.eq_nil_of_length_eq_zero (by omega)
      subst hb
      simp [extractLoop, splitFirst]
    | succ m =>
      simp only [extractLoop]
      cases hs : splitFirst buf with
      | none => rfl
      | some p =>
        obtain ⟨blk, r⟩ := p
        have hlen := splitFirst_length hs
        simp only [Option.elim]
        rw [ih m r (by omega) (by omega)]

/-- The canonical unfolding of `extractBlocks`. -/
theorem extractBlocks_eq (buf : List Nat) :
    extractBlocks buf =
      (splitFirst buf).elim ([], buf)
        (fun p => (p.1 :: (extractBlocks p.2).1, (extractBlocks p.2).2)) := by
  unfold extractBlocks
  cases hs : splitFirst buf with
  | none =>
    cases hb : buf.length with
    | zero =>
      have hb2 : buf = [] := List.eq_nil_of_length_eq_zero hb
      subst hb2
      rfl
    | succ k =>
      simp [extractLoop, hs]
  | some p =>
    obtain ⟨blk, r⟩ := p
    have hlen := splitFirst_length hs
    cases hb : buf.length with
    | zero => omega
    | succ k =>
      simp only [extractLoop, hs, Option.elim]
      rw [extractLoop_congr k r.length r (by omega) (le_refl _)]

theorem extractBlocks_none {buf : List Nat} (h : splitFirst buf = none) :
    extractBlocks buf = ([], buf) := by
  rw [extractBlocks_eq, h]
  rfl

theorem extractBlocks_some {buf blk r : List Nat}
    (h : splitFirst buf = some (blk, r)) :
    extractBlocks buf = (blk :: (extractBlocks r).1, (extractBlocks r).2) := by
  rw [extractBlocks_eq, h]
  rfl

/-- The residual buffer left by extraction contains no separator. -/
theorem extractBlocks_residual (buf : List Nat) :
    splitFirst (extractBlocks buf).2 = none := by
  have H : ∀ n (buf : List Nat), buf.length ≤ n →
      splitFirst (extractBlocks buf).2 = none := by
    intro n
    induction n with
    | zero =>
      intro buf hb
      have hb2 : buf = [] := List.eq_nil_of_length_eq_zero (by omega)
      subst hb2
      rfl
    | succ n ih =>
      intro buf hb
      cases hs : splitFirst buf with
      | none =>
        rw [extractBlocks_none hs]
        exact hs
      | some p =>
        obtain ⟨blk, r⟩ := p
        have hlen := splitFirst_length hs
        rw [extractBlocks_some hs]
        exact ih r (by omega)
  exact H buf.length buf (le_refl _)

/-- Confluence of extraction with concatenation: the blocks found in `x ++ y`
are the blocks found in `x` followed by the blocks found in the residue of
`x` prepended to `y`. -/
theorem extractBlocks_append (x y : List Nat) :
    extractBlocks (x ++ y) =
      ((extractBlocks x).1 ++ (extractBlocks ((extractBlocks x).2 ++ y)).1,
        (extractBlocks ((extractBlocks x).2 ++ y)).2) := by
  have H : ∀ n (x : List Nat), x.length ≤ n →
      extractBlocks (x ++ y) =
        ((extractBlocks x).1 ++ (extractBlocks ((extractBlocks x).2 ++ y)).1,
          (extractBlocks ((extractBlocks x).2 ++ y)).2) := by
    intro n
    induction n with
    | zero =>
      intro x hx
      have hx2 : x = [] := List.eq_nil_of_length_eq_zero (by omega)
      subst hx2
      simp [extractBlocks_none (show splitFirst [] = none from rfl)]
    | succ n ih =>
      intro x hx
      cases hs : splitFirst x with
      | none =>
        rw [extractBlocks_none hs]
        simp
      | some p =>
        obtain ⟨blk, r⟩ := p
        have hlen := splitFirst_length hs
        have hsa := splitFirst_append y hs
        rw [extractBlocks_some hsa, extractBlocks_some hs]
        have hr := ih r (by omega)
        simp only [hr]
        simp
  exact H x.length x (le_refl _)

/-- The prefix `"data: "` tested by `line.startsWith('data: ')` (api.js 424),
as code points. -/
def dataMark : List Nat := [100, 97, 116, 97, 58, 32]

/-- Per-line handling (api.js 424-427): a line starting with `"data: "`
yields its payload `line.slice(6)` unless the payload is empty; anything
else yields nothing. -/
def parseLine (line : List Nat) : Option (List Nat) :=
  if dataMark.isPrefixOf line then
    if line.drop 6 = [] then none else some (line.drop 6)
  else none

/-- `eventBlock.split('\n')` (api.js 422) on code points. -/
def splitNl : List Nat → List (List Nat)
  | [] => [[]]
  | c :: rest =>
    if c = 10 then [] :: splitNl rest
    else
      match splitNl rest with
      | [] => [[c]]
      | l :: ls => (c :: l) :: ls

/-- The non-empty `data: ` payloads of one event block, in line order. -/
def blockPayloads (blk : List Nat) : List (List Nat) :=
  (splitNl blk).filterMap parseLine

/-- All complete non-empty `data: ` payloads of a response body, in order:
the lines of the blocks terminated by `"\n\n"`; a trailing unterminated
fragment is never processed (api.js 401-406 only warns about it). -/
def dataPayloads (s : List Nat) : List (List Nat) :=
  ((extractBlocks s).1.map blockPayloads).flatten

/-- One delivered `onEvent(event.type, event)` call for a payload: present
exactly when `JSON.parse` (abstracted as `parse`) succeeds, carrying the
`event.type` property access (abstracted as `typeOf`). -/
def payloadEvent {Ev τ : Type} (parse : List Nat → Option Ev) (typeOf : Ev → τ)
    (d : List Nat) : Option (τ × Ev) :=
  (parse d).map (fun e => (typeOf e, e))

/-- The `onEvent` calls made while processing one event block
(api.js 421-441): JSON-parse failures are logged and skipped. -/
def blockEvents {Ev τ : Type} (parse : List Nat → Option Ev) (typeOf : Ev → τ)
    (blk : List Nat) : List (τ × Ev) :=
  (blockPayloads blk).filterMap (payloadEvent parse typeOf)

/-- The read loop of `sendMessageStream` (api.js 397-443) over a list of byte
chunks: each chunk is decoded through the carried `TextDecoder` state,
appended to the buffer, complete blocks are extracted and their events
delivered; when the reader reports `done`, any buffered remainder is
discarded with a warning. -/
def streamRun {Ev τ : Type} (parse : List Nat → Option Ev) (typeOf : Ev → τ) :
    DecState → List Nat → List (List Nat) → List (τ × Ev)
  | _, _, [] => []
  | d, buf, chunk :: rest =>
    ((extractBlocks (buf ++ (decodeChunk d chunk).2)).1.map
        (blockEvents parse typeOf)).flatten ++
      streamRun parse typeOf (decodeChunk d chunk).1
        (extractBlocks (buf ++ (decodeChunk d chunk).2)).2 rest

/-- Models `api.sendMessageStream`: the ordered list of `onEvent` calls made
for a response body delivered as the given byte chunks. -/
def sendMessageStream {Ev τ : Type} (parse : List Nat → Option Ev) (typeOf : Ev → τ)
    (chunks : List (List Nat)) : List (τ × Ev) :=
  streamRun parse typeOf cleanDec [] chunks

/-- The events of all complete blocks of a whole text. -/
def allEvents {Ev τ : Type} (parse : List Nat → Option Ev) (typeOf : Ev → τ)
    (s : List Nat) : List (τ × Ev) :=
  ((extractBlocks s).1.map (blockEvents parse typeOf)).flatten

theorem allEvents_append {Ev τ : Type} (parse : List Nat → Option Ev)
    (typeOf : Ev → τ) (x y : List Nat) :
    allEvents parse typeOf (x ++ y) =
      ((extractBlocks x).1.map (blockEvents parse typeOf)).flatten ++
        allEvents parse typeOf ((extractBlocks x).2 ++ y) := by
  unfold allEvents
  rw [extractBlocks_append]
  simp

theorem streamRun_eq {Ev τ : Type} (parse : List Nat → Option Ev) (typeOf : Ev → τ) :
    ∀ (chunks : List (List Nat)) (d : DecState) (buf : List Nat),
      splitFirst buf = none →
      streamRun parse typeOf d buf chunks =
        allEvents parse typeOf (buf ++ (decodeChunk d chunks.flatten).2) := by
  intro chunks
  induction chunks with
  | nil =>
    intro d buf hbuf
    simp only [streamRun, List.flatten_nil, decodeChunk, List.append_nil]
    rw [allEvents, extractBlocks_none hbuf]
    simp
  | cons chunk rest ih =>
    intro d buf hbuf
    simp only [streamRun, List.flatten_cons]
    rw [ih (decodeChunk d chunk).1 _ (extractBlocks_residual _)]
    rw [decodeChunk_append]
    rw [← List.append_assoc]
    rw [allEvents_append parse typeOf (buf ++ (decodeChunk d chunk).2)]

/-- Shared core of C3 and C10: for every chunking of the UTF-8 encoding of a
body, the delivered events are the JSON-parse survivors of the body's data
payloads, in payload order — independent of the chunk boundaries. -/
theorem sendMessageStream_processed {Ev τ : Type} (parse : List Nat → Option Ev)
    (typeOf : Ev → τ) (body : List Nat) (hv : ∀ c ∈ body, c < 1114112)
    (chunks : List (List Nat)) (hc : chunks.flatten = utf8Encode body) :
    sendMessageStream parse typeOf chunks =
      (dataPayloads body).filterMap (payloadEvent parse typeOf) := by
  unfold sendMessageStream
  rw [streamRun_eq parse typeOf chunks cleanDec [] rfl, hc,
    decode_encode body hv]
  show allEvents parse typeOf body = _
  unfold allEvents dataPayloads blockEvents
  generalize (extractBlocks body).1 = bs
  induction bs with
  | nil => simp
  | cons b bs ih =>
    simp only [List.map_cons, List.flatten_cons, List.filterMap_append, ih]

theorem filterMap_length_of_all_isSome {Ev τ : Type} (parse : List Nat → Option Ev)
    (typeOf : Ev → τ) (l : List (List Nat))
    (h : l.all (fun d => (parse d).isSome) = true) :
    (l.filterMap (payloadEvent parse typeOf)).length = l.length := by
  induction l with
  | nil => rfl
  | cons d ds ih =>
    simp only [List.all_cons, Bool.and_eq_true] at h
    obtain ⟨hd, hds⟩ := h
    obtain ⟨e, he⟩ := Option.isSome_iff_exists.mp hd
    simp only [List.filterMap_cons, payloadEvent, he, Option.map_some', List.length_cons]
    rw [ih hds]

/-! #### Claim C3 -/

/-- C3: the SSE reader is faithful and chunking-independent.  For every body
(a valid code-point sequence) and every partition of its UTF-8 encoding into
byte chunks — including partitions that split inside a multi-byte character
or inside an event block — the delivered `onEvent` sequence equals the
JSON-parse image of the body's complete non-empty `data: ` payloads in body
order (so it is the same for all chunkings), and when every payload parses,
`onEvent` is invoked exactly once per payload. -/
theorem sendMessageStream_chunk_invariant {Ev τ : Type}
    (parse : List Nat → Option Ev) (typeOf : Ev → τ) (body : List Nat)
    (hv : ∀ c ∈ body, c < 1114112) (chunks : List (List Nat))
    (hc : chunks.flatten = utf8Encode body) :
    sendMessageStream parse typeOf chunks =
        (dataPayloads body).filterMap (payloadEvent parse typeOf) ∧
      ((dataPayloads body).all (fun d => (parse d).isSome) = true →
        (sendMessageStream parse typeOf chunks).length = (dataPayloads body).length) := by
  have h := sendMessageStream_processed parse typeOf body hv chunks hc
  refine ⟨h, fun hall => ?_⟩
  rw [h]
  exact filterMap_length_of_all_isSome parse typeOf _ hall

/-- A body with one event block whose payload contains the 2-byte character
U+00E9: `"data: Aé\n\n"`. -/
def sseWitnessBody : List Nat := [100, 97, 116, 97, 58, 32, 65, 233, 10, 10]

/-- A chunking of the witness body's UTF-8 bytes split in the middle of the
2-byte encoding `[195, 169]` of U+00E9. -/
def sseWitnessChunks : List (List Nat) :=
  [[100, 97, 116, 97, 58, 32, 65, 195], [169, 10, 10]]

/-- Witness for C3 at an identity parser and a chunking that splits a
multi-byte character. -/
theorem sendMessageStream_chunk_invariant_witness :
    sendMessageStream (fun d => some d) (fun e : List Nat => e.length)
        sseWitnessChunks =
        (dataPayloads sseWitnessBody).filterMap
          (payloadEvent (fun d => some d) (fun e : List Nat => e.length)) ∧
      ((dataPayloads sseWitnessBody).all
          (fun d => ((fun d => some d) d : Option (List Nat)).isSome) = true →
        (sendMessageStream (fun d => some d) (fun e : List Nat => e.length)
            sseWitnessChunks).length = (dataPayloads sseWitnessBody).length) :=
  sendMessageStream_chunk_invariant (fun d => some d) (fun e : List Nat => e.length)
    sseWitnessBody (by decide) sseWitnessChunks (by decide)

/-! #### Claim C10 -/

/-- C10: malformed events never break the stream.  When one of the body's
data payloads fails to JSON-parse, `sendMessageStream` skips that line (the
try/catch at api.js 429-439 absorbs the parse error, so nothing is thrown)
and still delivers every well-formed event before and after it, in order. -/
theorem sendMessageStream_skips_malformed {Ev τ : Type}
    (parse : List Nat → Option Ev) (typeOf : Ev → τ) (body : List Nat)
    (hv : ∀ c ∈ body, c < 1114112) (chunks : List (List Nat))
    (hc : chunks.flatten = utf8Encode body) (xs ys : List (List Nat))
    (bad : List Nat) (hsplit : dataPayloads body = xs ++ bad :: ys)
    (hbad : parse bad = none) :
    sendMessageStream parse typeOf chunks =
      xs.filterMap (payloadEvent parse typeOf) ++
        ys.filterMap (payloadEvent parse typeOf) := by
  rw [sendMessageStream_processed parse typeOf body hv chunks hc, hsplit]
  simp [List.filterMap_append, List.filterMap_cons, payloadEvent, hbad]

/-- A body with three event blocks, payloads `"1"`, `"2"`, `"1"`. -/
def sseMalformedBody : List Nat :=
  [100, 97, 116, 97, 58, 32, 49, 10, 10,
   100, 97, 116, 97, 58, 32, 50, 10, 10,
   100, 97, 116, 97, 58, 32, 49, 10, 10]

/-- Witness for C10: a parser that rejects the middle payload `"2"`; both
occurrences of `"1"` are still delivered. -/
theorem sendMessageStream_skips_malformed_witness :
    sendMessageStream (fun d => if d = [50] then none else some d)
        (fun e : List Nat => e.length) [sseMalformedBody] =
      [[49]].filterMap (payloadEvent (fun d => if d = [50] then none else some d)
          (fun e : List Nat => e.length)) ++
        [[49]].filterMap (payloadEvent (fun d => if d = [50] then none else some d)
          (fun e : List Nat => e.length)) :=
  sendMessageStream_skips_malformed (fun d => if d = [50] then none else some d)
    (fun e : List Nat => e.length) sseMalformedBody (by decide) [sseMalformedBody]
    (by decide) [[49]] [[49]] [50] (by decide) (by decide)

/-! ### Claim C7: the aggregate ranking

The aggregation runs in the backend, which is not part of this source tree
(the frontend only displays `metadata.aggregate_rankings`).  Modelled from
the spec, section 4.2: "for each member that appears in the anonymization
map, compute the arithmetic mean of the positions (1-indexed) assigned to it
across all valid Stage2Results that included it; members absent from a given
rater's ranking are excluded from that rater's contribution.  Sort ascending
by average rank; ties broken by descending vote count, then by the member's
original Stage1 arrival order (stable, deterministic)." -/

/-- One row of the AggregateRanking: member, average rank, vote count. -/
structure AggEntry where
  memberId : Nat
  averageRank : ℚ
  voteCount : Nat
deriving Repr, DecidableEq

/-- Modelled from the spec: the 1-indexed position of member `m` in one
parsed ranking, or `none` when the rater omitted `m`. -/
def idx1 : List Nat → Nat → Option Nat
  | [], _ => none
  | x :: xs, m => if x = m then some 1 else (idx1 xs m).map (· + 1)

/-- Modelled from the spec: the positions assigned to `m` by exactly those
raters whose parsed ranking includes it. -/
def rankPositions (rankings : List (List Nat)) (m : Nat) : List Nat :=
  rankings.filterMap (fun r => idx1 r m)

/-- Modelled from the spec: the number of raters that ranked `m`. -/
def voteCountOf (rankings : List (List Nat)) (m : Nat) : Nat :=
  (rankPositions rankings m).length

/-- Modelled from the spec: the arithmetic mean of the 1-indexed positions
assigned to `m` by the raters that included it. -/
def averageRankOf (rankings : List (List Nat)) (m : Nat) : ℚ :=
  ((rankPositions rankings m).sum : ℚ) / (voteCountOf rankings m : ℚ)

/-- The aggregate row of one member. -/
def entryOf (rankings : List (List Nat)) (m : Nat) : AggEntry :=
  { memberId := m, averageRank := averageRankOf rankings m,
    voteCount := voteCountOf rankings m }

/-- Modelled from the spec: the strict sort order — ascending average rank,
ties broken by descending vote count; remaining ties keep arrival order. -/
def aggBefore (a b : AggEntry) : Bool :=
  a.averageRank < b.averageRank ||
    (a.averageRank == b.averageRank && b.voteCount < a.voteCount)

/-- Stable insertion: a new entry goes before the first strictly-later entry
and after all entries it ties with, preserving arrival order on ties. -/
def insertEntry (x : AggEntry) : List AggEntry → List AggEntry
  | [] => [x]
  | y :: ys => if aggBefore x y then x :: y :: ys else y :: insertEntry x ys

/-- Modelled from the spec: the AggregateRanking of the members (in Stage1
arrival order) under the given parsed rankings. -/
def aggregateRanking (members : List Nat) (rankings : List (List Nat)) :
    List AggEntry :=
  members.foldl (fun acc m => insertEntry (entryOf rankings m) acc) []

theorem aggBefore_asymm {x y : AggEntry} (h : aggBefore x y = true) :
    aggBefore y x = false := by
  simp only [aggBefore, Bool.or_eq_true, Bool.and_eq_true, decide_eq_true_eq,
    beq_iff_eq] at h
  rw [Bool.eq_false_iff]
  intro hcon
  simp only [aggBefore, Bool.or_eq_true, Bool.and_eq_true, decide_eq_true_eq,
    beq_iff_eq] at hcon
  rcases h with h1 | ⟨h2, h3⟩ <;> rcases hcon with g1 | ⟨g2, g3⟩
  · exact absurd (lt_trans h1 g1) (lt_irrefl _)
  · rw [g2] at h1
    exact lt_irrefl _ h1
  · rw [h2] at g1
    exact lt_irrefl _ g1
  · omega

theorem aggBefore_transfer {x y z : AggEntry} (hxy : aggBefore x y = true)
    (hzy : aggBefore z y = false) : aggBefore z x = false := by
  simp only [aggBefore, Bool.or_eq_true, Bool.and_eq_true, decide_eq_true_eq,
    beq_iff_eq] at hxy
  rw [Bool.eq_false_iff] at hzy ⊢
  intro hcon
  apply hzy
  simp only [aggBefore, Bool.or_eq_true, Bool.and_eq_true, decide_eq_true_eq,
    beq_iff_eq] at hcon ⊢
  rcases hxy with h1 | ⟨h2, h3⟩ <;> rcases hcon with g1 | ⟨g2, g3⟩
  · exact Or.inl (lt_trans g1 h1)
  · rw [g2]
    exact Or.inl h1
  · rw [← h2] at *
    exact Or.inl g1
  · rw [← h2] at *
    exact Or.inr ⟨g2, by omega⟩

theorem insertEntry_perm (x : AggEntry) (l : List AggEntry) :
    (insertEntry x l).Perm (x :: l) := by
  induction l with
  | nil => exact List.Perm.refl _
  | cons y ys ih =>
    by_cases h : aggBefore x y
    · simp [insertEntry, h]
    · simp only [insertEntry, if_neg h]
      exact (ih.cons y).trans (List.Perm.swap x y ys)

theorem insertEntry_sorted {x : AggEntry} {l : List AggEntry}
    (hl : l.Pairwise (fun a b => aggBefore b a = false)) :
    (insertEntry x l).Pairwise (fun a b => aggBefore b a = false) := by
  induction l with
  | nil => simp [insertEntry]
  | cons y ys ih =>
    rcases List.pairwise_cons.mp hl with ⟨hy, hys⟩
    by_cases h : aggBefore x y
    · simp only [insertEntry, if_pos h]
      refine List.pairwise_cons.mpr ⟨?_, hl⟩
      intro z hz
      rcases List.mem_cons.mp hz with rfl | hz2
      · exact aggBefore_asymm h
      · exact aggBefore_transfer h (hy z hz2)
    · simp only [insertEntry, if_neg h]
      refine List.pairwise_cons.mpr ⟨?_, ih hys⟩
      intro z hz
      rcases List.mem_cons.mp ((insertEntry_perm x ys).mem_iff.mp hz) with rfl | hz2
      · exact Bool.eq_false_iff.mpr h
      · exact hy z hz2

theorem aggregateRanking_perm (members : List Nat) (rankings : List (List Nat)) :
    (aggregateRanking members rankings).Perm (members.map (entryOf rankings)) := by
  have H : ∀ (ms : List Nat) (acc : List AggEntry),
      (ms.foldl (fun acc m => insertEntry (entryOf rankings m) acc) acc).Perm
        (acc ++ ms.map (entryOf rankings)) := by
    intro ms
    induction ms with
    | nil => intro acc; simp
    | cons m ms ih =>
      intro acc
      simp only [List.foldl_cons, List.map_cons]
      refine (ih (insertEntry (entryOf rankings m) acc)).trans ?_
      have h1 := (insertEntry_perm (entryOf rankings m) acc).append_right
        (ms.map (entryOf rankings))
      refine h1.trans ?_
      exact List.perm_middle.symm
  simpa using H members []

theorem aggregateRanking_sorted (members : List Nat) (rankings : List (List Nat)) :
    (aggregateRanking members rankings).Pairwise
      (fun a b => aggBefore b a = false) := by
  have H : ∀ (ms : List Nat) (acc : List AggEntry),
      acc.Pairwise (fun a b => aggBefore b a = false) →
      (ms.foldl (fun acc m => insertEntry (entryOf rankings m) acc) acc).Pairwise
        (fun a b => aggBefore b a = false) := by
    intro ms
    induction ms with
    | nil => intro acc h; exact h
    | cons m ms ih =>
      intro acc h
      exact ih _ (insertEntry_sorted h)
  exact H members [] (List.Pairwise.nil)

/-- Scenario A of the spec: three members, three complete rankings, member 1
ranked first by two raters and second by the third. -/
def scenarioRankings : List (List Nat) := [[1, 2, 3], [1, 3, 2], [2, 1, 3]]

theorem scenarioA_eval :
    aggregateRanking [1, 2, 3] scenarioRankings =
      [{ memberId := 1, averageRank := (4 : ℚ) / 3, voteCount := 3 },
       { memberId := 2, averageRank := 2, voteCount := 3 },
       { memberId := 3, averageRank := (8 : ℚ) / 3, voteCount := 3 }] := by
  norm_num [aggregateRanking, scenarioRankings, insertEntry, entryOf, averageRankOf,
    voteCountOf, rankPositions, idx1, aggBefore, List.filterMap_cons]

/-- C7: the aggregate ranking is the mean-of-ranks order.  The produced list
is exactly the per-member rows (member, mean of the 1-indexed positions
assigned by the raters that included it, vote count) re-ordered ascending by
average rank with ties broken by descending vote count (and arrival order on
full ties, by stable insertion); in Scenario A member 1 — ranked 1st, 1st and
2nd — gets average rank 4/3 with vote count 3 and is placed first. -/
theorem aggregateRanking_mean_of_ranks (members : List Nat)
    (rankings : List (List Nat)) :
    (aggregateRanking members rankings).Perm (members.map (entryOf rankings)) ∧
      (aggregateRanking members rankings).Pairwise
        (fun a b => aggBefore b a = false) ∧
      aggregateRanking [1, 2, 3] scenarioRankings =
        [{ memberId := 1, averageRank := (4 : ℚ) / 3, voteCount := 3 },
         { memberId := 2, averageRank := 2, voteCount := 3 },
         { memberId := 3, averageRank := (8 : ℚ) / 3, voteCount := 3 }] ∧
      (aggregateRanking [1, 2, 3] scenarioRankings).head? =
        some { memberId := 1, averageRank := (4 : ℚ) / 3, voteCount := 3 } := by
  refine ⟨aggregateRanking_perm members rankings,
    aggregateRanking_sorted members rankings, scenarioA_eval, ?_⟩
  rw [scenarioA_eval]
  rfl

/-! ### Claim C8: anonymization round-trip
(components/Stage2.jsx, `deAnonymizeText`/`buildLabelToModel`)

`deAnonymizeText` iterates over the label-to-model entries and replaces every
occurrence of the label (a global regex replace, left to right and
non-overlapping) with the *bold-wrapped short model name*
`**${model.split('/')[1] || model}**`.  There is no re-anonymizer in the
source; following the spec's words it is modelled as the inverse pass,
replacing each entry's inserted string back with its label, last entry
first.  Text is a list of code points; 42 is `'*'`, 47 is `'/'`. -/

/-- Fuelled left-to-right global replacement, one step per character: at a
match the replacement is emitted and the scan continues after the matched
occurrence.  This is the semantics of
`String.replace(new RegExp(pat, 'g'), rep)` only when the pattern contains
no regex-special character — the compiled global regex then matches exactly
the literal non-overlapping occurrences of `pat`, left to right — and the
replacement contains no dollar sign, so it is inserted verbatim with no
substitution.  Both restrictions are imposed as hypotheses (`EntryOKJS`)
of the round-trip theorem below; outside them this literal model and the
regex-based source diverge. -/
def replaceLoop (pat rep : List Nat) : Nat → List Nat → List Nat
  | 0, t => t
  | fuel + 1, t =>
    match t with
    | [] => []
    | c :: rest =>
      if pat ≠ [] ∧ pat.isPrefixOf (c :: rest) then
        rep ++ replaceLoop pat rep fuel ((c :: rest).drop pat.length)
      else c :: replaceLoop pat rep fuel rest

/-- Global replacement of `pat` by `rep` in `t`; the length of `t` is always
enough fuel. -/
def replaceAll (t pat rep : List Nat) : List Nat :=
  replaceLoop pat rep t.length t

theorem replaceLoop_congr (pat rep : List Nat) :
    ∀ n m t, t.length ≤ n → t.length ≤ m →
      replaceLoop pat rep n t = replaceLoop pat rep m t := by
  intro n
  induction n with
  | zero =>
    intro m t h1 _
    have ht : t = [] := List.eq_nil_of_length_eq_zero (by omega)
    subst ht
    cases m <;> rfl
  | succ n ih =>
    intro m t h1 h2
    cases m with
    | zero =>
      have ht : t = [] := List.eq_nil_of_length_eq_zero (by omega)
      subst ht
      rfl
    | succ m =>
      cases t with
      | nil => rfl
      | cons c rest =>
        simp only [replaceLoop]
        by_cases h : pat ≠ [] ∧ pat.isPrefixOf (c :: rest) = true
        · rw [if_pos h, if_pos h]
          have hp : 1 ≤ pat.length := by
            cases pat with
            | nil => exact absurd rfl h.1
            | cons p pt => simp
          have hd : ((c :: rest).drop pat.length).length ≤ n := by
            simp only [List.length_drop, List.length_cons]
            simp only [List.length_cons] at h1
            omega
          have hd2 : ((c :: rest).drop pat.length).length ≤ m := by
            simp only [List.length_drop, List.length_cons]
            simp only [List.length_cons] at h2
            omega
          rw [ih m _ hd hd2]
        · rw [if_neg h, if_neg h]
          simp only [List.length_cons] at h1 h2
          rw [ih m rest (by omega) (by omega)]

theorem replaceAll_nil (pat rep : List Nat) : replaceAll [] pat rep = [] := rfl

theorem replaceAll_cons_pos {pat : List Nat} (rep : List Nat) {c : Nat}
    {rest : List Nat} (hp : pat ≠ []) (hm : pat.isPrefixOf (c :: rest) = true) :
    replaceAll (c :: rest) pat rep =
      rep ++ replaceAll ((c :: rest).drop pat.length) pat rep := by
  unfold replaceAll
  simp only [List.length_cons, replaceLoop, if_pos (And.intro hp hm)]
  have hp1 : 1 ≤ pat.length := by
    cases pat with
    | nil => exact absurd rfl hp
    | cons p pt => simp
  rw [replaceLoop_congr pat rep rest.length ((c :: rest).drop pat.length).length _
    (by simp only [List.length_drop, List.length_cons]; omega) (le_refl _)]

theorem replaceAll_cons_neg {pat : List Nat} (rep : List Nat) {c : Nat}
    {rest : List Nat} (h : ¬ (pat ≠ [] ∧ pat.isPrefixOf (c :: rest) = true)) :
    replaceAll (c :: rest) pat rep = c :: replaceAll rest pat rep := by
  unfold replaceAll
  simp only [List.length_cons, replaceLoop, if_neg h]

/-- `model.split('/')` (Stage2.jsx line 821), on code points (47 is `'/'`). -/
def splitOnByte (sep : Nat) : List Nat → List (List Nat)
  | [] => [[]]
  | c :: rest =>
    if c = sep then [] :: splitOnByte sep rest
    else
      match splitOnByte sep rest with
      | [] => [[c]]
      | l :: ls => (c :: l) :: ls

/-- `model.split('/')[1] || model` (Stage2.jsx line 821): the second
slash-separated segment when it exists and is non-empty (the empty string is
falsy), else the whole model identifier. -/
def shortNameOf (model : List Nat) : List Nat :=
  match (splitOnByte 47 model).get? 1 with
  | some p => if p = [] then model else p
  | none => model

/-- The string `deAnonymizeText` substitutes for a label:
`` `**${modelShortName}**` `` (Stage2.jsx line 822); 42 is `'*'`. -/
def wrapBold (s : List Nat) : List Nat := 42 :: 42 :: (s ++ [42, 42])

/-- Models `deAnonymizeText(text, labelToModel)` (Stage2.jsx 815-825): one
global replace per entry, in entry order.  The source builds the pattern
with `new RegExp(label, 'g')`; the literal `replaceAll` coincides with it
exactly when the label has no regex-special character and the inserted
`**shortName**` has no dollar sign, the `EntryOKJS` conditions of the
round-trip theorem. -/
def deAnonymizeText (text : List Nat) (labelToModel : List (List Nat × List Nat)) :
    List Nat :=
  labelToModel.foldl
    (fun acc e => replaceAll acc e.1 (wrapBold (shortNameOf e.2))) text

/-- Modelled from the spec: re-anonymization is not present in the source;
following "de-anonymizing then re-anonymizing a text containing that label
yields the original text" it replaces each entry's inserted string
`**shortName**` back with the entry's label, undoing the last entry first.
The inverse pass is defined as a literal replacement: the inserted string
starts with two asterisks, which is not even a well-formed regex source, so
a regex-based inverse in the style of the forward pass cannot exist. -/
def reAnonymizeText (text : List Nat) (labelToModel : List (List Nat × List Nat)) :
    List Nat :=
  labelToModel.foldr
    (fun e acc => replaceAll acc (wrapBold (shortNameOf e.2)) e.1) text

/-- `buildIdToModel` (Stage2.jsx 795-802): member id to model identifier; a
later stage1 entry with the same id overwrites an earlier one. -/
def buildIdToModel (stage1Results : List (List Nat × List Nat)) (id : List Nat) :
    Option (List Nat) :=
  (stage1Results.reverse.find? (fun r => r.1 = id)).map (fun r => r.2)

/-- `buildLabelToModel` (Stage2.jsx 805-813): maps each label to the model
identifier of its member, `idToModel[id] || id` (an absent or empty model
identifier falls back to the id). -/
def buildLabelToModel (labelToId : List (List Nat × List Nat))
    (stage1Results : List (List Nat × List Nat)) : List (List Nat × List Nat) :=
  labelToId.map (fun e =>
    (e.1, match buildIdToModel stage1Results e.2 with
      | some m => if m = [] then e.2 else m
      | none => e.2))

/-- The label `"Response A"`. -/
def cexLabel : List Nat := [82, 101, 115, 112, 111, 110, 115, 101, 32, 65]

/-- The model identifier `"openai/gpt-4"` (short name `"gpt-4"`). -/
def cexModel : List Nat := [111, 112, 101, 110, 97, 105, 47, 103, 112, 116, 45, 52]

/-- A text containing the label: `"Response A**gpt-4**"`. -/
def cexText : List Nat := cexLabel ++ wrapBold (shortNameOf cexModel)

/-- C8 counterexample: with the single-entry map
`Response A ↦ openai/gpt-4` and the label-containing text
`"Response A**gpt-4**"`, de-anonymizing yields `"**gpt-4****gpt-4**"` and
re-anonymizing that yields `"Response AResponse A"`, not the original text:
the claim's universally-quantified round-trip fails as stated. -/
theorem deAnonymize_roundtrip_cex :
    cexLabel.isPrefixOf cexText = true ∧
      reAnonymizeText (deAnonymizeText cexText [(cexLabel, cexModel)])
          [(cexLabel, cexModel)] =
        cexLabel ++ cexLabel ∧
      reAnonymizeText (deAnonymizeText cexText [(cexLabel, cexModel)])
          [(cexLabel, cexModel)] ≠ cexText := by
  refine ⟨?_, ?_, ?_⟩ <;> decide

/-- A piece of the de-anonymized text: a fragment of the original text, or
one inserted bold-wrapped short name. -/
inductive Piece where
  | seg (u : List Nat)
  | blk (s : List Nat)
deriving Repr, DecidableEq

/-- The text of one piece. -/
def pieceText : Piece → List Nat
  | .seg u => u
  | .blk s => wrapBold s

/-- The text of a piece list. -/
def flattenPieces (P : List Piece) : List Nat := (P.map pieceText).flatten

/-- Shape invariant of the de-anonymized text: a segment, then alternating
inserted blocks and segments, ending with a segment. -/
inductive AltSeg : List Piece → Prop
  | single (u : List Nat) : AltSeg [.seg u]
  | pair (u s : List Nat) (rest : List Piece) (h : AltSeg rest) :
      AltSeg (.seg u :: .blk s :: rest)

theorem flattenPieces_cons (p : Piece) (P : List Piece) :
    flattenPieces (p :: P) = pieceText p ++ flattenPieces P := by
  simp [flattenPieces]

/-- A star-free pattern matches at the junction of `u` and a star-headed (or
empty) continuation if and only if it matches inside `u`. -/
theorem prefix_junction :
    ∀ (pat : List Nat), 42 ∉ pat → ∀ (u w : List Nat),
      (w = [] ∨ ∃ w₂, w = 42 :: w₂) →
      (pat <+: (u ++ w) ↔ pat <+: u) := by
  intro pat
  induction pat with
  | nil => intro _ u w _; simp
  | cons p pt ih =>
    intro hstar u w hw
    have hp : p ≠ 42 := by
      intro h
      exact hstar (by simp [h])
    have hpt : 42 ∉ pt := fun h => hstar (by simp [h])
    cases u with
    | nil =>
      simp only [List.nil_append]
      constructor
      · intro h
        rcases hw with rfl | ⟨w₂, rfl⟩
        · exact absurd h (by simp)
        · rw [List.cons_prefix_cons] at h
          exact absurd h.1 hp
      · intro h
        exact absurd h (by simp)
    | cons a u₂ =>
      simp only [List.cons_append, List.cons_prefix_cons]
      constructor
      · rintro ⟨rfl, h2⟩
        exact ⟨rfl, (ih hpt u₂ w hw).mp h2⟩
      · rintro ⟨rfl, h2⟩
        exact ⟨rfl, (ih hpt u₂ w hw).mpr h2⟩

/-- The pattern `s ++ "**"` never matches at the junction of a star-free
`u ≠ s` and a star-headed (or empty) continuation, when `s` is star-free. -/
theorem no_tail_match :
    ∀ (s : List Nat), 42 ∉ s → ∀ (u w : List Nat), 42 ∉ u → u ≠ s →
      (w = [] ∨ ∃ w₂, w = 42 :: w₂) →
      ¬ ((s ++ [42, 42]) <+: (u ++ w)) := by
  intro s
  induction s with
  | nil =>
    intro _ u w hu hus hw h
    cases u with
    | nil => exact hus rfl
    | cons b u₂ =>
      simp only [List.nil_append, List.cons_append, List.cons_prefix_cons] at h
      exact hu (by simp [h.1])
  | cons a s₂ ih =>
    intro hstar_s u w hu hus hw h
    have ha : a ≠ 42 := fun hc => hstar_s (by simp [hc])
    have hs₂ : 42 ∉ s₂ := fun hc => hstar_s (by simp [hc])
    cases u with
    | nil =>
      rcases hw with rfl | ⟨w₂, rfl⟩
      · simp at h
      · simp only [List.nil_append, List.cons_append, List.cons_prefix_cons] at h
        exact ha h.1
    | cons b u₂ =>
      simp only [List.cons_append, List.cons_prefix_cons] at h
      obtain ⟨rfl, h2⟩ := h
      have hne : u₂ ≠ s₂ := fun hc => hus (by rw [hc])
      exact ih hs₂ u₂ w (fun hc => hu (by simp [hc])) hne hw h2

/-- A continuation that is empty or starts with a complete inserted block. -/
def BlkHeaded (w : List Nat) : Prop :=
  w = [] ∨ ∃ s₂ rest, w = wrapBold s₂ ++ rest

/-- The pattern `"*" ++ s ++ "**"` never matches at the junction of a
star-free `u` and a block-headed (or empty) continuation, for star-free
non-empty `s`. -/
theorem no_star_tail_match {s : List Nat} (hs : s ≠ []) (hstar_s : 42 ∉ s)
    (u w : List Nat) (hu : 42 ∉ u) (hw : BlkHeaded w) :
    ¬ ((42 :: (s ++ [42, 42])) <+: (u ++ w)) := by
  intro h
  cases u with
  | cons b u₂ =>
    simp only [List.cons_append, List.cons_prefix_cons] at h
    exact hu (by simp [h.1])
  | nil =>
    rcases hw with rfl | ⟨s₂, rest, rfl⟩
    · simp at h
    · cases s with
      | nil => exact hs rfl
      | cons c s₃ =>
        simp only [List.nil_append, wrapBold, List.cons_append,
          List.cons_prefix_cons] at h
        obtain ⟨-, h2, -⟩ := h
        exact hstar_s (by simp [h2])

/-- Global replacement walks over a star-free prefix untouched when the
pattern starts with a star. -/
theorem skip_starFree (z rep : List Nat) :
    ∀ (u w : List Nat), 42 ∉ u →
      replaceAll (u ++ w) (42 :: z) rep = u ++ replaceAll w (42 :: z) rep := by
  intro u
  induction u with
  | nil => intro w _; simp
  | cons c u₂ ih =>
    intro w hu
    have hc : c ≠ 42 := fun hcc => hu (by simp [hcc])
    have hnm : ¬ ((42 :: z) ≠ [] ∧ (42 :: z).isPrefixOf (c :: (u₂ ++ w)) = true) := by
      rintro ⟨-, hpre⟩
      rw [List.isPrefixOf_iff_prefix, List.cons_prefix_cons] at hpre
      exact hc hpre.1.symm
    rw [List.cons_append, replaceAll_cons_neg rep hnm,
      ih w (fun hcc => hu (by simp [hcc]))]
    rfl

/-- Global replacement consumes an exact occurrence of the pattern at the
front and continues after it. -/
theorem replaceAll_exact {pat : List Nat} (hp : pat ≠ []) (rep w : List Nat) :
    replaceAll (pat ++ w) pat rep = rep ++ replaceAll w pat rep := by
  cases pat with
  | nil => exact absurd rfl hp
  | cons p pt =>
    have hpre : (p :: pt).isPrefixOf (p :: (pt ++ w)) = true := by
      rw [List.isPrefixOf_iff_prefix]
      exact List.prefix_append (p :: pt) w
    rw [List.cons_append, replaceAll_cons_pos rep (by simp) hpre]
    congr 1
    have hd : (p :: (pt ++ w)).drop (p :: pt).length = w := by
      rw [← List.cons_append, List.drop_left]
    rw [hd]

/-- Fuelled greedy decomposition of one original-text segment by one entry:
the same scan as `replaceLoop`, but recording the pieces instead of emitting
the replacement text. -/
def splitSegLoop (l s : List Nat) : Nat → List Nat → List Piece
  | 0, u => [.seg u]
  | fuel + 1, u =>
    match u with
    | [] => [.seg []]
    | c :: rest =>
      if l ≠ [] ∧ l.isPrefixOf (c :: rest) then
        .seg [] :: .blk s :: splitSegLoop l s fuel ((c :: rest).drop l.length)
      else
        match splitSegLoop l s fuel rest with
        | .seg v :: ps => .seg (c :: v) :: ps
        | ps => .seg [c] :: ps

/-- Greedy decomposition of a segment by the entry `(l, s)`. -/
def splitSeg (l s u : List Nat) : List Piece := splitSegLoop l s u.length u

theorem splitSegLoop_congr (l s : List Nat) :
    ∀ n m u, u.length ≤ n → u.length ≤ m →
      splitSegLoop l s n u = splitSegLoop l s m u := by
  intro n
  induction n with
  | zero =>
    intro m u h1 _
    have hu : u = [] := List.eq_nil_of_length_eq_zero (by omega)
    subst hu
    cases m <;> rfl
  | succ n ih =>
    intro m u h1 h2
    cases m with
    | zero =>
      have hu : u = [] := List.eq_nil_of_length_eq_zero (by omega)
      subst hu
      rfl
    | succ m =>
      cases u with
      | nil => rfl
      | cons c rest =>
        simp only [splitSegLoop]
        by_cases h : l ≠ [] ∧ l.isPrefixOf (c :: rest) = true
        · rw [if_pos h, if_pos h]
          have hp : 1 ≤ l.length := by
            cases l with
            | nil => exact absurd rfl h.1
            | cons p pt => simp
          simp only [List.length_cons] at h1 h2
          rw [ih m _ (by simp only [List.length_drop, List.length_cons]; omega)
            (by simp only [List.length_drop, List.length_cons]; omega)]
        · rw [if_neg h, if_neg h]
          simp only [List.length_cons] at h1 h2
          rw [ih m rest (by omega) (by omega)]

theorem splitSegLoop_head (l s : List Nat) :
    ∀ fuel u, ∃ v ps, splitSegLoop l s fuel u = .seg v :: ps ∧ v <+: u := by
  intro fuel
  induction fuel with
  | zero => intro u; exact ⟨u, [], rfl, List.prefix_refl u⟩
  | succ fuel ih =>
    intro u
    cases u with
    | nil => exact ⟨[], [], rfl, List.nil_prefix⟩
    | cons c rest =>
      by_cases h : l ≠ [] ∧ l.isPrefixOf (c :: rest) = true
      · exact ⟨[], Piece.blk s :: splitSegLoop l s fuel ((c :: rest).drop l.length),
          by simp only [splitSegLoop, if_pos h], List.nil_prefix⟩
      · obtain ⟨v, ps, heq, hpre⟩ := ih rest
        refine ⟨c :: v, ps, ?_, List.cons_prefix_cons.mpr ⟨rfl, hpre⟩⟩
        simp only [splitSegLoop, if_neg h, heq]

theorem splitSeg_nil (l s : List Nat) : splitSeg l s [] = [.seg []] := rfl

theorem splitSeg_cons_pos {l : List Nat} (s : List Nat) {c : Nat} {rest : List Nat}
    (hl : l ≠ []) (hm : l.isPrefixOf (c :: rest) = true) :
    splitSeg l s (c :: rest) =
      .seg [] :: .blk s :: splitSeg l s ((c :: rest).drop l.length) := by
  unfold splitSeg
  simp only [List.length_cons, splitSegLoop, if_pos (And.intro hl hm)]
  have hp : 1 ≤ l.length := by
    cases l with
    | nil => exact absurd rfl hl
    | cons p pt => simp
  rw [splitSegLoop_congr l s rest.length ((c :: rest).drop l.length).length _
    (by simp only [List.length_drop, List.length_cons]; omega) (le_refl _)]

theorem splitSeg_cons_neg {l : List Nat} (s : List Nat) {c : Nat} {rest : List Nat}
    (h : ¬ (l ≠ [] ∧ l.isPrefixOf (c :: rest) = true)) {v : List Nat}
    {ps : List Piece} (hrest : splitSeg l s rest = .seg v :: ps) :
    splitSeg l s (c :: rest) = .seg (c :: v) :: ps := by
  unfold splitSeg at hrest ⊢
  simp only [List.length_cons, splitSegLoop, if_neg h, hrest]

theorem splitSegLoop_blk_mem (l s : List Nat) :
    ∀ fuel u s2, Piece.blk s2 ∈ splitSegLoop l s fuel u → s2 = s := by
  intro fuel
  induction fuel with
  | zero => intro u s2 h; simp [splitSegLoop] at h
  | succ fuel ih =>
    intro u s2 h
    cases u with
    | nil => simp [splitSegLoop] at h
    | cons c rest =>
      by_cases hc : l ≠ [] ∧ l.isPrefixOf (c :: rest) = true
      · simp only [splitSegLoop, if_pos hc, List.mem_cons] at h
        simp only [reduceCtorEq, Piece.blk.injEq, false_or] at h
        rcases h with h | h
        · exact h
        · exact ih _ s2 h
      · obtain ⟨v, ps, heq, -⟩ := splitSegLoop_head l s fuel rest
        simp only [splitSegLoop, if_neg hc, heq, List.mem_cons] at h
        simp only [reduceCtorEq, false_or] at h
        exact ih rest s2 (by rw [heq]; exact List.mem_cons_of_mem _ h)

theorem splitSegLoop_seg_part (l s : List Nat) :
    ∀ fuel u v, Piece.seg v ∈ splitSegLoop l s fuel u → v <:+: u := by
  intro fuel
  induction fuel with
  | zero =>
    intro u v h
    simp only [splitSegLoop, List.mem_singleton] at h
    rw [(Piece.seg.injEq _ _ ▸ h : v = u)]
  | succ fuel ih =>
    intro u v h
    cases u with
    | nil =>
      simp only [splitSegLoop, List.mem_singleton] at h
      rw [(Piece.seg.injEq _ _ ▸ h : v = [])]
    | cons c rest =>
      by_cases hc : l ≠ [] ∧ l.isPrefixOf (c :: rest) = true
      · simp only [splitSegLoop, if_pos hc, List.mem_cons] at h
        rcases h with h | h | h
        · rw [(Piece.seg.injEq _ _ ▸ h : v = [])]
          exact List.nil_infix
        · exact absurd h (by simp)
        · exact (ih _ v h).trans (List.drop_suffix _ _).isInfix
      · obtain ⟨v₀, ps, heq, hpre⟩ := splitSegLoop_head l s fuel rest
        simp only [splitSegLoop, if_neg hc, heq, List.mem_cons] at h
        rcases h with h | h
        · rw [(Piece.seg.injEq _ _ ▸ h : v = c :: v₀)]
          exact (List.cons_prefix_cons.mpr ⟨rfl, hpre⟩).isInfix
        · have hmem : Piece.seg v ∈ splitSegLoop l s fuel rest := by
            rw [heq]
            exact List.mem_cons_of_mem _ h
          exact (ih rest v hmem).trans (List.suffix_cons c rest).isInfix

theorem altSeg_head_subst {v : List Nat} {ps : List Piece}
    (h : AltSeg (.seg v :: ps)) (v' : List Nat) : AltSeg (.seg v' :: ps) := by
  cases h with
  | single _ => exact AltSeg.single v'
  | pair _ s rest hrest => exact AltSeg.pair v' s rest hrest

theorem splitSegLoop_altSeg (l s : List Nat) :
    ∀ fuel u, AltSeg (splitSegLoop l s fuel u) := by
  intro fuel
  induction fuel with
  | zero => intro u; exact AltSeg.single u
  | succ fuel ih =>
    intro u
    cases u with
    | nil => exact AltSeg.single []
    | cons c rest =>
      by_cases hc : l ≠ [] ∧ l.isPrefixOf (c :: rest) = true
      · simp only [splitSegLoop, if_pos hc]
        exact AltSeg.pair [] s _ (ih _)
      · obtain ⟨v₀, ps, heq, -⟩ := splitSegLoop_head l s fuel rest
        simp only [splitSegLoop, if_neg hc, heq]
        exact altSeg_head_subst (heq ▸ ih rest) (c :: v₀)

theorem altSeg_append {A B : List Piece} (s' : List Nat)
    (hA : AltSeg A) (hB : AltSeg B) : AltSeg (A ++ .blk s' :: B) := by
  induction hA with
  | single u => exact AltSeg.pair u s' B hB
  | pair u s₃ rest hrest ih => exact AltSeg.pair u s₃ _ ih

/-- Greedy replacement of the entry `(l, s)` inside one segment, at the
junction with a star-headed (or empty) continuation: it emits exactly the
text of the segment's greedy decomposition and continues in the
continuation. -/
theorem forward_seg {l : List Nat} (s : List Nat) (hl : l ≠ []) (hstar : 42 ∉ l) :
    ∀ (u w : List Nat), (w = [] ∨ ∃ w₂, w = 42 :: w₂) →
      replaceAll (u ++ w) l (wrapBold s) =
        flattenPieces (splitSeg l s u) ++ replaceAll w l (wrapBold s) := by
  have H : ∀ n (u w : List Nat), u.length ≤ n → (w = [] ∨ ∃ w₂, w = 42 :: w₂) →
      replaceAll (u ++ w) l (wrapBold s) =
        flattenPieces (splitSeg l s u) ++ replaceAll w l (wrapBold s) := by
    intro n
    induction n with
    | zero =>
      intro u w hu hw
      have hu2 : u = [] := List.eq_nil_of_length_eq_zero (by omega)
      subst hu2
      simp [splitSeg_nil, flattenPieces, pieceText]
    | succ n ih =>
      intro u w hu hw
      cases u with
      | nil => simp [splitSeg_nil, flattenPieces, pieceText]
      | cons c rest =>
        simp only [List.length_cons] at hu
        by_cases hm : l.isPrefixOf (c :: rest) = true
        · have hpre : l <+: (c :: rest) := List.isPrefixOf_iff_prefix.mp hm
          have hlen : l.length ≤ (c :: rest).length := hpre.length_le
          have hmw : l.isPrefixOf ((c :: rest) ++ w) = true := by
            rw [List.isPrefixOf_iff_prefix]
            exact hpre.trans (List.prefix_append (c :: rest) w)
          rw [List.cons_append] at hmw
          rw [List.cons_append, replaceAll_cons_pos (wrapBold s) hl hmw,
            ← List.cons_append, List.drop_append_of_le_length hlen]
          have hdlen : ((c :: rest).drop l.length).length ≤ n := by
            simp only [List.length_drop, List.length_cons]
            have hl1 : 1 ≤ l.length := by
              cases l with
              | nil => exact absurd rfl hl
              | cons p pt => simp
            omega
          rw [ih _ w hdlen hw, splitSeg_cons_pos s hl hm,
            flattenPieces_cons, flattenPieces_cons]
          simp [pieceText, List.append_assoc]
        · have hnm : ¬ (l ≠ [] ∧ l.isPrefixOf (c :: (rest ++ w)) = true) := by
            rintro ⟨-, hp⟩
            rw [List.isPrefixOf_iff_prefix, ← List.cons_append] at hp
            rw [prefix_junction l hstar (c :: rest) w hw] at hp
            exact hm (List.isPrefixOf_iff_prefix.mpr hp)
          obtain ⟨v, ps, heq, -⟩ := splitSegLoop_head l s rest.length rest
          have heq2 : splitSeg l s rest = .seg v :: ps := heq
          rw [List.cons_append, replaceAll_cons_neg (wrapBold s) hnm,
            ih rest w (by omega) hw, splitSeg_cons_neg s
              (by rintro ⟨-, hp⟩; exact hm hp) heq2, heq2,
            flattenPieces_cons, flattenPieces_cons]
          simp [pieceText]
  intro u w hw
  exact H u.length u w (le_refl _) hw

/-- Greedy replacement of the entry `(l, s)` walks over a previously
inserted block of another entry untouched, because `l` is star-free and does
not occur inside the block's short name. -/
theorem forward_skip_blk {l : List Nat} (rep : List Nat) (s' : List Nat)
    (hl : l ≠ []) (hstar : 42 ∉ l) (hinf : ¬ l <:+: s') (w : List Nat) :
    replaceAll (wrapBold s' ++ w) l rep = wrapBold s' ++ replaceAll w l rep := by
  obtain ⟨p, pt, rfl⟩ : ∃ p pt, l = p :: pt := by
    cases l with
    | nil => exact absurd rfl hl
    | cons p pt => exact ⟨p, pt, rfl⟩
  have hp : p ≠ 42 := fun hc => hstar (by simp [hc])
  have hskip42 : ∀ (x : List Nat),
      replaceAll (42 :: x) (p :: pt) rep = 42 :: replaceAll x (p :: pt) rep := by
    intro x
    refine replaceAll_cons_neg rep ?_
    rintro ⟨-, hpre⟩
    rw [List.isPrefixOf_iff_prefix, List.cons_prefix_cons] at hpre
    exact hp hpre.1
  have hinner : ∀ (v : List Nat), v <:+ s' →
      replaceAll (v ++ ([42, 42] ++ w)) (p :: pt) rep =
        v ++ ([42, 42] ++ replaceAll w (p :: pt) rep) := by
    intro v
    induction v with
    | nil =>
      intro _
      simp only [List.nil_append]
      rw [show ([42, 42] ++ w : List Nat) = 42 :: (42 :: w) from rfl] at *
      rw [hskip42, hskip42]
      rfl
    | cons c v₂ ih =>
      intro hv
      have hnm : ¬ ((p :: pt) ≠ [] ∧
          (p :: pt).isPrefixOf (c :: (v₂ ++ ([42, 42] ++ w))) = true) := by
        rintro ⟨-, hpre⟩
        rw [List.isPrefixOf_iff_prefix, ← List.cons_append] at hpre
        rw [prefix_junction (p :: pt) hstar (c :: v₂) ([42, 42] ++ w)
          (Or.inr ⟨42 :: w, rfl⟩)] at hpre
        exact hinf (hpre.isInfix.trans hv.isInfix)
      rw [List.cons_append, replaceAll_cons_neg rep hnm,
        ih ((List.suffix_cons c v₂).trans hv)]
      rfl
  have hw1 := hinner s' (List.suffix_refl s')
  rw [show wrapBold s' ++ w = 42 :: (42 :: (s' ++ ([42, 42] ++ w))) by
    simp [wrapBold], hskip42, hskip42, hw1]
  simp [wrapBold]

/-- Expansion of the piece decomposition by one entry: segments are split
greedily, earlier blocks are untouched. -/
def expandPiece (l s : List Nat) : Piece → List Piece
  | .seg u => splitSeg l s u
  | .blk s2 => [.blk s2]

/-- Expansion of a piece list by one entry. -/
def expandPieces (l s : List Nat) (P : List Piece) : List Piece :=
  (P.map (expandPiece l s)).flatten

/-- One de-anonymization pass over the piece decomposition: replacing the
entry `(l, s)` in the flattened text is the same as expanding the pieces. -/
theorem forward_stage {l : List Nat} (s : List Nat) (hl : l ≠ []) (hstar : 42 ∉ l) :
    ∀ P, AltSeg P → (∀ s2, Piece.blk s2 ∈ P → ¬ l <:+: s2) →
      replaceAll (flattenPieces P) l (wrapBold s) =
        flattenPieces (expandPieces l s P) := by
  intro P hP
  induction hP with
  | single u =>
    intro _
    have h1 : flattenPieces [Piece.seg u] = u ++ [] := by
      simp [flattenPieces, pieceText]
    rw [h1, forward_seg s hl hstar u [] (Or.inl rfl)]
    simp [expandPieces, expandPiece, replaceAll_nil, flattenPieces]
  | pair u s' rest hrest ih =>
    intro hblk
    have h1 : flattenPieces (Piece.seg u :: Piece.blk s' :: rest) =
        u ++ (wrapBold s' ++ flattenPieces rest) := by
      simp [flattenPieces, pieceText]
    rw [h1, forward_seg s hl hstar u (wrapBold s' ++ flattenPieces rest)
      (Or.inr ⟨42 :: (s' ++ [42, 42]) ++ flattenPieces rest, by simp [wrapBold]⟩)]
    rw [forward_skip_blk (wrapBold s) s' hl hstar
      (hblk s' (by simp)) (flattenPieces rest)]
    rw [ih (fun s2 hs2 => hblk s2 (by simp [hs2]))]
    have h2 : expandPieces l s (Piece.seg u :: Piece.blk s' :: rest) =
        splitSeg l s u ++ (Piece.blk s' :: expandPieces l s rest) := by
      simp [expandPieces, expandPiece]
    rw [h2]
    simp [flattenPieces, pieceText, List.append_assoc]

theorem BlkHeaded.headStar {w : List Nat} (h : BlkHeaded w) :
    w = [] ∨ ∃ w₂, w = 42 :: w₂ := by
  rcases h with rfl | ⟨s₂, rest, rfl⟩
  · exact Or.inl rfl
  · exact Or.inr ⟨42 :: ((s₂ ++ [42, 42]) ++ rest), by simp [wrapBold]⟩

/-- Removing the entry `(l, s)` walks over an inserted block of a different
short name untouched: no occurrence of `**s**` can start inside `**s'**` or
straddle its boundary with what follows. -/
theorem backward_skip_blk (s l s' : List Nat) (hss : s' ≠ s) (hs : s ≠ [])
    (hs' : s' ≠ []) (hstar_s : 42 ∉ s) (hstar_s' : 42 ∉ s')
    (u₂ w₂ : List Nat) (hu₂ : 42 ∉ u₂) (hu₂s : u₂ ≠ s) (hw₂ : BlkHeaded w₂) :
    replaceAll (wrapBold s' ++ (u₂ ++ w₂)) (wrapBold s) l =
      wrapBold s' ++ replaceAll (u₂ ++ w₂) (wrapBold s) l := by
  have epat : wrapBold s = 42 :: (42 :: (s ++ [42, 42])) := rfl
  have hnm0 : ¬ (wrapBold s ≠ [] ∧
      (wrapBold s).isPrefixOf
        (42 :: (42 :: (s' ++ ([42, 42] ++ (u₂ ++ w₂))))) = true) := by
    rintro ⟨-, hpre⟩
    rw [List.isPrefixOf_iff_prefix, epat, List.cons_prefix_cons] at hpre
    obtain ⟨-, hpre⟩ := hpre
    rw [List.cons_prefix_cons] at hpre
    obtain ⟨-, hpre⟩ := hpre
    exact no_tail_match s hstar_s s' ([42, 42] ++ (u₂ ++ w₂)) hstar_s' hss
      (Or.inr ⟨42 :: (u₂ ++ w₂), rfl⟩) hpre
  have hnm1 : ¬ (wrapBold s ≠ [] ∧
      (wrapBold s).isPrefixOf (42 :: (s' ++ ([42, 42] ++ (u₂ ++ w₂)))) = true) := by
    rintro ⟨-, hpre⟩
    rw [List.isPrefixOf_iff_prefix, epat, List.cons_prefix_cons] at hpre
    obtain ⟨-, hpre⟩ := hpre
    cases s' with
    | nil => exact hs' rfl
    | cons c' s₃ =>
      rw [List.cons_append, List.cons_prefix_cons] at hpre
      exact hstar_s' (by simp [← hpre.1])
  have hnm2 : ¬ (wrapBold s ≠ [] ∧
      (wrapBold s).isPrefixOf (42 :: (42 :: (u₂ ++ w₂))) = true) := by
    rintro ⟨-, hpre⟩
    rw [List.isPrefixOf_iff_prefix, epat, List.cons_prefix_cons] at hpre
    obtain ⟨-, hpre⟩ := hpre
    rw [List.cons_prefix_cons] at hpre
    obtain ⟨-, hpre⟩ := hpre
    exact no_tail_match s hstar_s u₂ w₂ hu₂ hu₂s hw₂.headStar hpre
  have hnm3 : ¬ (wrapBold s ≠ [] ∧
      (wrapBold s).isPrefixOf (42 :: (u₂ ++ w₂)) = true) := by
    rintro ⟨-, hpre⟩
    rw [List.isPrefixOf_iff_prefix, epat, List.cons_prefix_cons] at hpre
    obtain ⟨-, hpre⟩ := hpre
    exact no_star_tail_match hs hstar_s u₂ w₂ hu₂ hw₂ hpre
  have hstart : wrapBold s' ++ (u₂ ++ w₂) =
      42 :: (42 :: (s' ++ ([42, 42] ++ (u₂ ++ w₂)))) := by
    simp [wrapBold]
  rw [hstart, replaceAll_cons_neg l hnm0, replaceAll_cons_neg l hnm1]
  have hskip : replaceAll (s' ++ ([42, 42] ++ (u₂ ++ w₂))) (wrapBold s) l =
      s' ++ replaceAll ([42, 42] ++ (u₂ ++ w₂)) (wrapBold s) l := by
    rw [epat]
    exact skip_starFree _ l s' _ hstar_s'
  rw [hskip]
  have e2 : ([42, 42] ++ (u₂ ++ w₂) : List Nat) = 42 :: (42 :: (u₂ ++ w₂)) := rfl
  rw [e2, replaceAll_cons_neg l hnm2, replaceAll_cons_neg l hnm3]
  simp [wrapBold]

/-- Undoing one entry on the piece decomposition: its blocks become the
label again, everything else is untouched. -/
def undoPiece (s l : List Nat) : Piece → Piece
  | .seg u => .seg u
  | .blk s2 => if s2 = s then .seg l else .blk s2

theorem flattenPieces_append (A B : List Piece) :
    flattenPieces (A ++ B) = flattenPieces A ++ flattenPieces B := by
  simp [flattenPieces]

/-- Removing the entry `(l, s)` from the flattened decomposition replaces
exactly its inserted blocks by the label. -/
theorem backward_stage (s l : List Nat) (hs : s ≠ []) (hstar_s : 42 ∉ s) :
    ∀ Q, AltSeg Q →
      (∀ u, Piece.seg u ∈ Q → 42 ∉ u ∧ u ≠ s) →
      (∀ s2, Piece.blk s2 ∈ Q → s2 ≠ [] ∧ 42 ∉ s2) →
      replaceAll (flattenPieces Q) (wrapBold s) l =
        flattenPieces (Q.map (undoPiece s l)) := by
  have epat : wrapBold s = 42 :: (42 :: (s ++ [42, 42])) := rfl
  intro Q hQ
  induction hQ with
  | single u =>
    intro hseg _
    have h1 : flattenPieces [Piece.seg u] = u ++ [] := by
      simp [flattenPieces, pieceText]
    rw [h1, epat, skip_starFree _ l u [] (hseg u (by simp)).1]
    simp [flattenPieces, pieceText, undoPiece, replaceAll_nil]
  | pair u s' rest hrest ih =>
    intro hseg hblk
    have h1 : flattenPieces (Piece.seg u :: Piece.blk s' :: rest) =
        u ++ (wrapBold s' ++ flattenPieces rest) := by
      simp [flattenPieces, pieceText]
    have hu := hseg u (by simp)
    rw [h1, epat, skip_starFree _ l u _ hu.1, ← epat]
    have hih := ih (fun v hv => hseg v (by simp [hv]))
      (fun s2 hs2 => hblk s2 (by simp [hs2]))
    by_cases hss : s' = s
    · subst hss
      have hwne : wrapBold s' ≠ [] := by simp [wrapBold]
      rw [replaceAll_exact hwne l (flattenPieces rest), hih]
      simp [flattenPieces, pieceText, undoPiece]
    · have hdecomp : ∃ u₂ w₂, flattenPieces rest = u₂ ++ w₂ ∧
          (Piece.seg u₂ ∈ rest) ∧ BlkHeaded w₂ := by
        cases hrest with
        | single u₂ =>
          exact ⟨u₂, [], by simp [flattenPieces, pieceText], by simp, Or.inl rfl⟩
        | pair u₂ s₃ rest₂ hrest₂ =>
          refine ⟨u₂, wrapBold s₃ ++ flattenPieces rest₂, ?_, by simp, ?_⟩
          · simp [flattenPieces, pieceText]
          · exact Or.inr ⟨s₃, flattenPieces rest₂, rfl⟩
      obtain ⟨u₂, w₂, hfr, hu₂mem, hw₂⟩ := hdecomp
      have hu₂ := hseg u₂ (by simp [hu₂mem])
      have hs' := hblk s' (by simp)
      rw [hfr, backward_skip_blk s l s' hss hs hs'.1 hstar_s hs'.2 u₂ w₂
        hu₂.1 hu₂.2 hw₂, ← hfr, hih]
      simp [flattenPieces, pieceText, undoPiece, hss]

/-- Undoing the freshly inserted blocks of one greedy segment decomposition
restores the segment. -/
theorem undo_splitSegLoop (l s : List Nat) :
    ∀ fuel u, flattenPieces ((splitSegLoop l s fuel u).map (undoPiece s l)) = u := by
  intro fuel
  induction fuel with
  | zero => intro u; simp [splitSegLoop, flattenPieces, pieceText, undoPiece]
  | succ fuel ih =>
    intro u
    cases u with
    | nil => simp [splitSegLoop, flattenPieces, pieceText, undoPiece]
    | cons c rest =>
      by_cases hc : l ≠ [] ∧ l.isPrefixOf (c :: rest) = true
      · have hpre : l <+: (c :: rest) := List.isPrefixOf_iff_prefix.mp hc.2
        obtain ⟨t, ht⟩ := hpre
        have hdrop : (c :: rest).drop l.length = t := by
          rw [← ht, List.drop_left]
        simp only [splitSegLoop, if_pos hc, List.map_cons, flattenPieces_cons]
        rw [hdrop, ih t]
        simp [pieceText, undoPiece, ← ht]
      · obtain ⟨v, ps, heq, -⟩ := splitSegLoop_head l s fuel rest
        simp only [splitSegLoop, if_neg hc, heq, List.map_cons, flattenPieces_cons]
        have hih := ih rest
        rw [heq] at hih
        simp only [List.map_cons, flattenPieces_cons] at hih
        simp only [pieceText, undoPiece] at hih ⊢
        rw [List.cons_append, hih]

theorem expandPieces_nil (l s : List Nat) : expandPieces l s [] = [] := rfl

theorem expandPieces_cons (l s : List Nat) (p : Piece) (P : List Piece) :
    expandPieces l s (p :: P) = expandPiece l s p ++ expandPieces l s P := by
  simp [expandPieces]

/-- Undoing the entry `(l, s)` after expanding by it restores the original
decomposition, provided no older block carries the same short name. -/
theorem undo_expand (l s : List Nat) :
    ∀ P, (∀ s2, Piece.blk s2 ∈ P → s2 ≠ s) →
      flattenPieces ((expandPieces l s P).map (undoPiece s l)) = flattenPieces P := by
  intro P
  induction P with
  | nil => intro _; rfl
  | cons p P' ih =>
    intro hblk
    rw [expandPieces_cons, List.map_append, flattenPieces_append,
      ih (fun s2 hs2 => hblk s2 (by simp [hs2])), flattenPieces_cons]
    congr 1
    cases p with
    | seg u => exact undo_splitSegLoop l s u.length u
    | blk s2 =>
      have hne : s2 ≠ s := hblk s2 (by simp)
      simp [expandPiece, undoPiece, hne, flattenPieces, pieceText]

theorem expandPieces_blk_mem {l s : List Nat} {P : List Piece} {s2 : List Nat}
    (h : Piece.blk s2 ∈ expandPieces l s P) : Piece.blk s2 ∈ P ∨ s2 = s := by
  induction P with
  | nil => simp [expandPieces] at h
  | cons p P' ih =>
    rw [expandPieces_cons, List.mem_append] at h
    rcases h with h | h
    · cases p with
      | seg u => exact Or.inr (splitSegLoop_blk_mem l s u.length u s2 h)
      | blk s3 =>
        simp only [expandPiece, List.mem_singleton] at h
        rw [h]
        exact Or.inl (by simp)
    · rcases ih h with h2 | h2
      · exact Or.inl (List.mem_cons_of_mem _ h2)
      · exact Or.inr h2

theorem expandPieces_seg_mem {l s : List Nat} {P : List Piece} {u : List Nat}
    (h : Piece.seg u ∈ expandPieces l s P) :
    ∃ u₀, Piece.seg u₀ ∈ P ∧ u <:+: u₀ := by
  induction P with
  | nil => simp [expandPieces] at h
  | cons p P' ih =>
    rw [expandPieces_cons, List.mem_append] at h
    rcases h with h | h
    · cases p with
      | seg u₀ =>
        exact ⟨u₀, by simp, splitSegLoop_seg_part l s u₀.length u₀ u h⟩
      | blk s3 => simp [expandPiece] at h
    · obtain ⟨u₀, hmem, hinf⟩ := ih h
      exact ⟨u₀, List.mem_cons_of_mem _ hmem, hinf⟩

theorem expandPieces_altSeg {l s : List Nat} {P : List Piece} (h : AltSeg P) :
    AltSeg (expandPieces l s P) := by
  induction h with
  | single u =>
    have e : expandPieces l s [Piece.seg u] = splitSeg l s u := by
      simp [expandPieces, expandPiece]
    rw [e]
    exact splitSegLoop_altSeg l s u.length u
  | pair u s' rest hrest ih =>
    have e : expandPieces l s (Piece.seg u :: Piece.blk s' :: rest) =
        splitSeg l s u ++ (Piece.blk s' :: expandPieces l s rest) := by
      simp [expandPieces, expandPiece]
    rw [e]
    exact altSeg_append s' (splitSegLoop_altSeg l s u.length u) ih

theorem notMem_of_part {a : Nat} {u v : List Nat} (h : u <:+: v) (hv : a ∉ v) :
    a ∉ u := by
  intro hmem
  obtain ⟨p, t2, rfl⟩ := h
  exact hv (by simp [hmem])

/-- The piece decomposition after de-anonymizing the entries `es` in order,
starting from the whole original text as one segment. -/
def stagePieces (text : List Nat) (es : List (List Nat × List Nat)) : List Piece :=
  es.foldl (fun P e => expandPieces e.1 (shortNameOf e.2) P) [.seg text]

/-- The per-entry side conditions of the amended round-trip: non-empty,
star-free labels and short names, and short names that do not already occur
in the text. -/
def EntryOK (text : List Nat) (e : List Nat × List Nat) : Prop :=
  e.1 ≠ [] ∧ 42 ∉ e.1 ∧ shortNameOf e.2 ≠ [] ∧ 42 ∉ shortNameOf e.2 ∧
    ¬ shortNameOf e.2 <:+: text

instance (text : List Nat) (e : List Nat × List Nat) : Decidable (EntryOK text e) := by
  unfold EntryOK
  infer_instance

/-- The code points that are special in a JavaScript regular expression
source: dollar, the two parentheses, asterisk, plus, dot, question mark,
the two square brackets, backslash, caret, the two curly braces and the
vertical bar.  A pattern free of these compiles to a regex that matches
exactly its literal occurrences. -/
def regexSpecials : List Nat :=
  [36, 40, 41, 42, 43, 46, 63, 91, 92, 93, 94, 123, 124, 125]

/-- The side conditions under which the regex-based replace of the source
(Stage2.jsx 822) behaves as the literal `replaceAll`: on top of `EntryOK`,
the label contains no regex-special character (so `new RegExp(label, 'g')`
matches exactly the literal occurrences of the label) and the short name
contains no dollar sign (code point 36, so the replacement `**shortName**`
is inserted verbatim, with no dollar-substitution). -/
def EntryOKJS (text : List Nat) (e : List Nat × List Nat) : Prop :=
  EntryOK text e ∧ (∀ c ∈ regexSpecials, c ∉ e.1) ∧ 36 ∉ shortNameOf e.2

instance (text : List Nat) (e : List Nat × List Nat) : Decidable (EntryOKJS text e) := by
  unfold EntryOKJS
  infer_instance

/-- Invariants of the staged decomposition: alternating shape, star-free
text-infix segments, blocks drawn from the processed entries' short names,
and agreement of the flattened text with `deAnonymizeText`. -/
theorem stagePieces_inv (text : List Nat) (htext : 42 ∉ text) :
    ∀ es : List (List Nat × List Nat),
      (∀ e ∈ es, EntryOK text e) →
      (∀ e1 ∈ es, ∀ e2 ∈ es, ¬ e1.1 <:+: shortNameOf e2.2) →
      AltSeg (stagePieces text es) ∧
        (∀ u, Piece.seg u ∈ stagePieces text es → 42 ∉ u ∧ u <:+: text) ∧
        (∀ s2, Piece.blk s2 ∈ stagePieces text es →
          ∃ e, e ∈ es ∧ s2 = shortNameOf e.2) ∧
        flattenPieces (stagePieces text es) = deAnonymizeText text es := by
  intro es
  induction es using List.reverseRecOn with
  | nil =>
    intro _ _
    refine ⟨AltSeg.single text, ?_, ?_, ?_⟩
    · intro u hu
      simp only [stagePieces, List.foldl_nil, List.mem_singleton,
        Piece.seg.injEq] at hu
      rw [hu]
      exact ⟨htext, List.infix_refl text⟩
    · intro s2 hs2
      simp [stagePieces] at hs2
    · simp [stagePieces, deAnonymizeText, flattenPieces, pieceText]
  | append_singleton es' e ih =>
    intro hok hls
    have hok' : ∀ x ∈ es', EntryOK text x :=
      fun x hx => hok x (List.mem_append_left _ hx)
    have hls' : ∀ x1 ∈ es', ∀ x2 ∈ es', ¬ x1.1 <:+: shortNameOf x2.2 :=
      fun x1 h1 x2 h2 =>
        hls x1 (List.mem_append_left _ h1) x2 (List.mem_append_left _ h2)
    obtain ⟨hAlt, hSeg, hBlk, hFlat⟩ := ih hok' hls'
    have hoke : EntryOK text e := hok e (by simp)
    have hstage : stagePieces text (es' ++ [e]) =
        expandPieces e.1 (shortNameOf e.2) (stagePieces text es') := by
      simp [stagePieces, List.foldl_append]
    have hblkcond : ∀ s2, Piece.blk s2 ∈ stagePieces text es' →
        ¬ e.1 <:+: s2 := by
      intro s2 hs2
      obtain ⟨e2, he2, rfl⟩ := hBlk s2 hs2
      exact hls e (by simp) e2 (List.mem_append_left _ he2)
    refine ⟨?_, ?_, ?_, ?_⟩
    · rw [hstage]
      exact expandPieces_altSeg hAlt
    · intro u hu
      rw [hstage] at hu
      obtain ⟨u₀, hmem, hinf⟩ := expandPieces_seg_mem hu
      obtain ⟨h1, h2⟩ := hSeg u₀ hmem
      exact ⟨notMem_of_part hinf h1, hinf.trans h2⟩
    · intro s2 hs2
      rw [hstage] at hs2
      rcases expandPieces_blk_mem hs2 with h | h
      · obtain ⟨e2, he2, hval⟩ := hBlk s2 h
        exact ⟨e2, List.mem_append_left _ he2, hval⟩
      · exact ⟨e, by simp, h⟩
    · rw [hstage, ← forward_stage (shortNameOf e.2) hoke.1 hoke.2.1
        (stagePieces text es') hAlt hblkcond, hFlat]
      simp [deAnonymizeText, List.foldl_append]

/-- C8 (amended): de-anonymizing then re-anonymizing — replacing each
entry's inserted `**shortName**` back with its label, last entry first —
yields the original text, provided the text and all labels and short names
are asterisk-free, labels and short names are non-empty, labels contain no
regex-special character and short names no dollar sign (so the source's
`new RegExp(label, 'g')` replace behaves as the literal replacement),
short names are pairwise distinct and do not occur in the text, and no
label occurs inside a short name. -/
theorem deAnonymizeText_roundtrip (text : List Nat)
    (es : List (List Nat × List Nat)) (htext : 42 ∉ text)
    (hok : ∀ e ∈ es, EntryOKJS text e)
    (hdis : es.Pairwise (fun a b => shortNameOf a.2 ≠ shortNameOf b.2))
    (hls : ∀ e1 ∈ es, ∀ e2 ∈ es, ¬ e1.1 <:+: shortNameOf e2.2) :
    reAnonymizeText (deAnonymizeText text es) es = text := by
  induction es using List.reverseRecOn with
  | nil => rfl
  | append_singleton es' e ih =>
    have hok' : ∀ x ∈ es', EntryOKJS text x :=
      fun x hx => hok x (List.mem_append_left _ hx)
    have hokE : ∀ x ∈ es', EntryOK text x := fun x hx => (hok' x hx).1
    have hdis' : es'.Pairwise (fun a b => shortNameOf a.2 ≠ shortNameOf b.2) :=
      (List.pairwise_append.mp hdis).1
    have hls' : ∀ x1 ∈ es', ∀ x2 ∈ es', ¬ x1.1 <:+: shortNameOf x2.2 :=
      fun x1 h1 x2 h2 =>
        hls x1 (List.mem_append_left _ h1) x2 (List.mem_append_left _ h2)
    obtain ⟨hAlt, hSeg, hBlk, hFlat⟩ := stagePieces_inv text htext es' hokE hls'
    have hoke : EntryOK text e := (hok e (by simp)).1
    have hblkcond : ∀ s2, Piece.blk s2 ∈ stagePieces text es' →
        ¬ e.1 <:+: s2 := by
      intro s2 hs2
      obtain ⟨e2, he2, rfl⟩ := hBlk s2 hs2
      exact hls e (by simp) e2 (List.mem_append_left _ he2)
    have hfwd : deAnonymizeText text (es' ++ [e]) =
        flattenPieces (expandPieces e.1 (shortNameOf e.2) (stagePieces text es')) := by
      rw [← forward_stage (shortNameOf e.2) hoke.1 hoke.2.1
        (stagePieces text es') hAlt hblkcond, hFlat]
      simp [deAnonymizeText, List.foldl_append]
    have hre : reAnonymizeText (deAnonymizeText text (es' ++ [e])) (es' ++ [e]) =
        reAnonymizeText
          (replaceAll (deAnonymizeText text (es' ++ [e]))
            (wrapBold (shortNameOf e.2)) e.1) es' := by
      simp [reAnonymizeText, List.foldr_append]
    have hsegcond : ∀ u, Piece.seg u ∈
        expandPieces e.1 (shortNameOf e.2) (stagePieces text es') →
        42 ∉ u ∧ u ≠ shortNameOf e.2 := by
      intro u hu
      obtain ⟨u₀, hmem, hinf⟩ := expandPieces_seg_mem hu
      obtain ⟨h1, h2⟩ := hSeg u₀ hmem
      refine ⟨notMem_of_part hinf h1, ?_⟩
      intro hc
      exact hoke.2.2.2.2 (hc ▸ hinf.trans h2)
    have hblkcond2 : ∀ s2, Piece.blk s2 ∈
        expandPieces e.1 (shortNameOf e.2) (stagePieces text es') →
        s2 ≠ [] ∧ 42 ∉ s2 := by
      intro s2 hs2
      rcases expandPieces_blk_mem hs2 with h | h
      · obtain ⟨e2, he2, rfl⟩ := hBlk s2 h
        have := (hok e2 (List.mem_append_left _ he2)).1
        exact ⟨this.2.2.1, this.2.2.2.1⟩
      · rw [h]
        exact ⟨hoke.2.2.1, hoke.2.2.2.1⟩
    have hdisold : ∀ s2, Piece.blk s2 ∈ stagePieces text es' →
        s2 ≠ shortNameOf e.2 := by
      intro s2 hs2
      obtain ⟨e2, he2, rfl⟩ := hBlk s2 hs2
      exact (List.pairwise_append.mp hdis).2.2 e2 he2 e (by simp)
    have hbwd : replaceAll
        (flattenPieces (expandPieces e.1 (shortNameOf e.2) (stagePieces text es')))
        (wrapBold (shortNameOf e.2)) e.1 = deAnonymizeText text es' := by
      rw [backward_stage (shortNameOf e.2) e.1 hoke.2.2.1 hoke.2.2.2.1 _
        (expandPieces_altSeg hAlt) hsegcond hblkcond2,
        undo_expand e.1 (shortNameOf e.2) (stagePieces text es') hdisold, hFlat]
    rw [hre, hfwd, hbwd]
    exact ih hok' hdis' hls'

/-- The turn's label-to-member map of the witness:
`Response A ↦ m1`, `Response B ↦ m2`. -/
def wLabelToId : List (List Nat × List Nat) :=
  [([82, 101, 115, 112, 111, 110, 115, 101, 32, 65], [109, 49]),
   ([82, 101, 115, 112, 111, 110, 115, 101, 32, 66], [109, 50])]

/-- The witness stage-1 results: `m1 ↦ openai/gpt-4`, `m2 ↦ anthropic/claude`. -/
def wStage1 : List (List Nat × List Nat) :=
  [([109, 49], [111, 112, 101, 110, 97, 105, 47, 103, 112, 116, 45, 52]),
   ([109, 50], [97, 110, 116, 104, 114, 111, 112, 105, 99, 47,
     99, 108, 97, 117, 100, 101])]

/-- The witness text `"Response A Response B"`, containing both labels. -/
def wText : List Nat :=
  [82, 101, 115, 112, 111, 110, 115, 101, 32, 65, 32,
   82, 101, 115, 112, 111, 110, 115, 101, 32, 66]

/-- Witness for the amended C8, on the map built by `buildLabelToModel` from
a label-to-id map and stage-1 results. -/
theorem deAnonymizeText_roundtrip_witness :
    reAnonymizeText (deAnonymizeText wText (buildLabelToModel wLabelToId wStage1))
      (buildLabelToModel wLabelToId wStage1) = wText :=
  deAnonymizeText_roundtrip wText (buildLabelToModel wLabelToId wStage1)
    (by decide) (by decide) (by decide) (by decide)

end LLMCouncil
